import Mathlib

/-!
Shallow embedding of the split-check worker
(`src/raftstore/store/worker/split_check.rs`) and proofs about it.

Keys are byte strings, modelled as `List Nat` with the lexicographic order
(which coincides with `Ord` on Rust byte vectors).  `u64` arithmetic is
modelled as `Nat` arithmetic reduced `% 2 ^ 64` where the source adds.

The storage engine (RocksDB) is external to the file under verification; it
is modelled as a per-column-family association list of `(key, value_size)`
entries sorted strictly by key, exactly the view the source accesses through
`new_iterator_cf` / `seek` / `next`, together with an oracle for the
`get_region_approximate_size` call and two flags injecting the possible
iterator-construction failures (`new_iterator_cf` returning `Err` during
`bound_keys`, resp. during `MergedIterator::new`).
-/

namespace SplitCheck

/-- Byte-string key, compared lexicographically. -/
abbrev Key := List Nat

/-- One column family: the `(key, value.len())` entries visible to an
iterator, in ascending key order. -/
abbrev CF := List (Key × Nat)

/-- Model of the storage engine as consumed by the split-check worker.
`cfs` is the data of the `LARGE_CFS` column families in order;
`approx` is the answer of `util::get_region_approximate_size`
(`none` models `Err`); the two flags model `new_iterator_cf` failing
inside `bound_keys` resp. inside `MergedIterator::new`. -/
structure Engine where
  cfs : List CF
  approx : Option Nat
  boundIterErr : Bool
  mergeIterErr : Bool

/-- `metapb::Region` restricted to the fields the worker reads. -/
structure Region where
  id : Nat
  start_key : Key
  end_key : Key
  epoch : Nat

/-- The two `Msg` variants the worker sends on its channel. -/
inductive Msg where
  | approximateRegionSize (region_id : Nat) (region_size : Nat)
  | splitRegion (region_id : Nat) (epoch : Nat) (split_key : Key)
deriving DecidableEq, Repr

/-- True for the `SplitRegion` variant. -/
def Msg.isSplit : Msg → Bool
  | .splitRegion .. => true
  | _ => false

/-- A key entry of the merged stream: `KeyEntry { key, pos, value_size }`.
The source wraps `key` in an `Option` purely to move it out of the heap
(`KeyEntry::take`); ownership plumbing is dropped here. -/
structure KeyEntry where
  key : Key
  pos : Nat
  value_size : Nat
deriving DecidableEq, Repr

/-! ## SizeChecker -/

/-- `SizeChecker` without its engine and channel handles: the two
configured thresholds and the two accumulator fields. -/
structure SizeChecker where
  region_max_size : Nat
  split_size : Nat
  split_key : Option Key
  current_size : Nat
deriving DecidableEq, Repr

/-- `Runner::new` initialises the size checker with `split_key: None,
current_size: 0`. -/
def SizeChecker.new (region_max_size split_size : Nat) : SizeChecker :=
  ⟨region_max_size, split_size, none, 0⟩

/-- `SizeChecker::find_split_key`: add `key.len() + value_size` to
`current_size` (u64 arithmetic); record `split_key` if unset and
`current_size > split_size`; return `self.split_key.take()` once a key is
recorded and `current_size >= region_max_size`. -/
def SizeChecker.find_split_key (c : SizeChecker) (key : Key) (value_size : Nat) :
    Option Key × SizeChecker :=
  let current_size := (c.current_size + key.length + value_size) % 2 ^ 64
  let split_key := if c.split_key = none ∧ c.split_size < current_size
    then some key else c.split_key
  if split_key.isSome ∧ c.region_max_size ≤ current_size then
    (split_key, { c with split_key := none, current_size := current_size })
  else
    (none, { c with split_key := split_key, current_size := current_size })

/-- `SizeChecker::finish`: clear both accumulator fields. -/
def SizeChecker.finish (c : SizeChecker) : SizeChecker :=
  { c with split_key := none, current_size := 0 }

/-- `SizeChecker::check_size`: query the approximate region size; on
success publish `ApproximateRegionSize` and return the size, on engine
error log and return `None` (no message is sent). -/
def check_size (engine : Engine) (region : Region) : Option Nat × List Msg :=
  match engine.approx with
  | none => (none, [])
  | some region_size =>
      (some region_size, [Msg.approximateRegionSize region.id region_size])

/-- `SizeChecker::prev_check`: `true` (skip the scan) iff the approximate
size was obtained and is `< region_max_size`; on an engine error
(`check_size` returned `None`) the source returns `false`. -/
def SizeChecker.prev_check (c : SizeChecker) (engine : Engine) (region : Region) :
    Bool × List Msg :=
  match check_size engine region with
  | (some region_size, msgs) => (decide (region_size < c.region_max_size), msgs)
  | (none, msgs) => (false, msgs)

/-- Iterated `find_split_key` over a list of `(key, value_size)` feeds,
keeping only the state (the per-call results are examined separately). -/
def feedList (c : SizeChecker) : List (Key × Nat) → SizeChecker
  | [] => c
  | kv :: rest => feedList (c.find_split_key kv.1 kv.2).2 rest

/-! ### SizeChecker lemmas -/

theorem find_split_key_current_size (c : SizeChecker) (k : Key) (v : Nat) :
    (c.find_split_key k v).2.current_size = (c.current_size + k.length + v) % 2 ^ 64 := by
  unfold SizeChecker.find_split_key
  dsimp only
  split <;> split <;> rfl

theorem find_split_key_keeps_cfg (c : SizeChecker) (k : Key) (v : Nat) :
    (c.find_split_key k v).2.region_max_size = c.region_max_size ∧
    (c.find_split_key k v).2.split_size = c.split_size := by
  unfold SizeChecker.find_split_key
  dsimp only
  split <;> split <;> exact ⟨rfl, rfl⟩

/-- Sum of byte weights of a feed list. -/
def feedSum (l : List (Key × Nat)) : Nat :=
  (l.map fun kv => kv.1.length + kv.2).sum

theorem feedList_current_size (l : List (Key × Nat)) (c : SizeChecker)
    (h : c.current_size % 2 ^ 64 = c.current_size) :
    (feedList c l).current_size = (c.current_size + feedSum l) % 2 ^ 64 := by
  induction l generalizing c with
  | nil => simpa [feedList, feedSum] using h.symm
  | cons kv rest ih =>
      rw [feedList]
      rw [ih _ (by rw [find_split_key_current_size]; exact Nat.mod_mod_of_dvd _ dvd_rfl)]
      rw [find_split_key_current_size]
      simp [feedSum, Nat.mod_add_mod, Nat.add_assoc]

/-! ## MergedIterator

The source keeps one `KeyEntry` per non-exhausted column family in a
`BinaryHeap` ordered by reversed key comparison (a min-heap on keys); the
order of entries with equal keys is unspecified.  The heap is modelled as a
plain list whose `peek` (`selectMin`) returns the first entry holding a
minimal key, a deterministic refinement of the unspecified tie order. -/

/-- Peek of the min-heap: the first entry with minimal key, together with
the remaining entries. -/
def selectMin : List KeyEntry → Option (KeyEntry × List KeyEntry)
  | [] => none
  | e :: es =>
    match selectMin es with
    | none => some (e, [])
    | some (m, rest) => if e.key ≤ m.key then some (e, es) else some (m, e :: rest)

theorem selectMin_eq_none {l : List KeyEntry} : selectMin l = none ↔ l = [] := by
  cases l with
  | nil => simp [selectMin]
  | cons e es =>
      unfold selectMin
      cases h : selectMin es with
      | none => simp
      | some p => cases p with | mk m rest => by_cases hk : e.key ≤ m.key <;> simp [hk]

theorem selectMin_append {l : List KeyEntry} {m : KeyEntry} {rest : List KeyEntry}
    (h : selectMin l = some (m, rest)) :
    ∃ l1 l2, l = l1 ++ m :: l2 ∧ rest = l1 ++ l2 := by
  induction l generalizing m rest with
  | nil => simp [selectMin] at h
  | cons e es ih =>
      unfold selectMin at h
      cases h2 : selectMin es with
      | none =>
          rw [h2] at h
          obtain rfl : es = [] := selectMin_eq_none.mp h2
          injection h with h
          injection h with h1 h3
          exact ⟨[], [], by simp [← h1, ← h3]⟩
      | some p =>
          obtain ⟨m', rest'⟩ := p
          rw [h2] at h
          by_cases hk : e.key ≤ m'.key
          · simp only [hk, if_pos] at h
            injection h with h
            injection h with h1 h3
            exact ⟨[], es, by simp [← h1, ← h3]⟩
          · simp only [hk, if_neg, not_false_iff] at h
            injection h with h
            injection h with h1 h3
            obtain ⟨l1, l2, hl, hr⟩ := ih h2
            refine ⟨e :: l1, l2, ?_, ?_⟩
            · simp [hl, h1]
            · simp [← h3, hr]

theorem selectMin_le_all {l : List KeyEntry} {m : KeyEntry} {rest : List KeyEntry}
    (h : selectMin l = some (m, rest)) : ∀ x ∈ l, m.key ≤ x.key := by
  induction l generalizing m rest with
  | nil => simp [selectMin] at h
  | cons e es ih =>
      unfold selectMin at h
      cases h2 : selectMin es with
      | none =>
          rw [h2] at h
          obtain rfl : es = [] := selectMin_eq_none.mp h2
          injection h with h
          injection h with h1 h3
          intro x hx
          simp at hx
          subst hx
          exact le_of_eq (by rw [h1])
      | some p =>
          obtain ⟨m', rest'⟩ := p
          rw [h2] at h
          by_cases hk : e.key ≤ m'.key
          · simp only [hk, if_pos] at h
            injection h with h
            injection h with h1 h3
            subst h1
            intro x hx
            rcases List.mem_cons.mp hx with rfl | hx
            · exact le_refl _
            · exact le_trans hk (ih h2 x hx)
          · simp only [hk, if_neg, not_false_iff] at h
            injection h with h
            injection h with h1 h3
            subst h1
            intro x hx
            rcases List.mem_cons.mp hx with rfl | hx
            · exact le_of_not_le hk
            · exact ih h2 x hx

theorem selectMin_perm {l : List KeyEntry} {m : KeyEntry} {rest : List KeyEntry}
    (h : selectMin l = some (m, rest)) : l.Perm (m :: rest) := by
  obtain ⟨l1, l2, hl, hr⟩ := selectMin_append h
  subst hl
  subst hr
  exact List.perm_middle

theorem selectMin_sublist {l : List KeyEntry} {m : KeyEntry} {rest : List KeyEntry}
    (h : selectMin l = some (m, rest)) : rest.Sublist l := by
  obtain ⟨l1, l2, hl, hr⟩ := selectMin_append h
  subst hl
  subst hr
  exact (List.sublist_cons_self m l2).append_left l1

theorem selectMin_mem {l : List KeyEntry} {m : KeyEntry} {rest : List KeyEntry}
    (h : selectMin l = some (m, rest)) : m ∈ l :=
  (selectMin_perm h).mem_iff.mpr (List.mem_cons_self m rest)

theorem selectMin_le {l : List KeyEntry} {m : KeyEntry} {rest : List KeyEntry}
    (h : selectMin l = some (m, rest)) : ∀ x ∈ rest, m.key ≤ x.key :=
  fun x hx => selectMin_le_all h x ((selectMin_sublist h).mem hx)

/-- `MergedIterator { iters, heap }`.  `iters` holds, per column family,
the entries strictly beyond the one currently sitting in the heap (the
remaining positions of the underlying engine iterator). -/
structure MergedIterator where
  iters : List (List KeyEntry)
  heap : List KeyEntry

/-- `MergedIterator::next`: peek the heap minimum; advance the
corresponding column-family iterator; if it yields a further entry,
replace the heap top in place, otherwise pop it; return the old top. -/
def MergedIterator.next (it : MergedIterator) : Option (KeyEntry × MergedIterator) :=
  match selectMin it.heap with
  | none => none
  | some (top, rest) =>
    match (it.iters.getD top.pos []).head? with
    | some e2 =>
        some (top, ⟨it.iters.set top.pos (it.iters.getD top.pos []).tail, e2 :: rest⟩)
    | none => some (top, ⟨it.iters, rest⟩)

/-- Total number of entries the iterator can still produce. -/
def MergedIterator.totalSize (it : MergedIterator) : Nat :=
  it.heap.length + (it.iters.map List.length).sum

theorem sum_map_length_set (L : List (List KeyEntry)) (i : Nat) (t : List KeyEntry)
    (h : i < L.length) :
    ((L.set i t).map List.length).sum + (L.getD i []).length
      = (L.map List.length).sum + t.length := by
  induction L generalizing i with
  | nil => simp at h
  | cons a rest ih =>
      cases i with
      | zero => simp [List.getD]; omega
      | succ j =>
          have hj : j < rest.length := by simpa using h
          have := ih j hj
          simp only [List.set, List.map, List.sum_cons, List.getD] at *
          simp only [List.get?] at *
          omega

theorem lt_length_of_getD_ne_nil {L : List (List KeyEntry)} {i : Nat}
    (h : L.getD i [] ≠ []) : i < L.length := by
  by_contra hi
  exact h (List.getD_eq_default L [] (le_of_not_lt hi))

theorem head_cons_of_head?_eq {L : List KeyEntry} {e : KeyEntry}
    (h : L.head? = some e) : L = e :: L.tail := by
  cases L with
  | nil => simp at h
  | cons a t =>
      simp only [List.head?_cons, Option.some.injEq] at h
      simp [h]

theorem next_totalSize {it it2 : MergedIterator} {e : KeyEntry}
    (h : it.next = some (e, it2)) : it2.totalSize < it.totalSize := by
  unfold MergedIterator.next at h
  cases hs : selectMin it.heap with
  | none => rw [hs] at h; exact absurd h (by simp)
  | some p =>
      obtain ⟨top, rest⟩ := p
      rw [hs] at h
      dsimp only at h
      have hlen : it.heap.length = rest.length + 1 := by
        simpa using (selectMin_perm hs).length_eq
      cases hh : (it.iters.getD top.pos []).head? with
      | some e2 =>
          rw [hh] at h
          have h2 : it2 = ⟨it.iters.set top.pos (it.iters.getD top.pos []).tail,
              e2 :: rest⟩ := by
            injection h with h3
            exact (congrArg Prod.snd h3).symm
          have hpos : top.pos < it.iters.length :=
            lt_length_of_getD_ne_nil (by intro hnil; rw [hnil] at hh; simp at hh)
          have hsum := sum_map_length_set it.iters top.pos
            (it.iters.getD top.pos []).tail hpos
          have hLlen : (it.iters.getD top.pos []).length
              = (it.iters.getD top.pos []).tail.length + 1 := by
            rw [head_cons_of_head?_eq hh]; simp
          subst h2
          simp only [MergedIterator.totalSize, List.length_cons]
          omega
      | none =>
          rw [hh] at h
          have h2 : it2 = ⟨it.iters, rest⟩ := by
            injection h with h3
            exact (congrArg Prod.snd h3).symm
          subst h2
          simp only [MergedIterator.totalSize]
          omega

/-- The full (finite) emission sequence of a `MergedIterator`: values of
successive `next()` calls until `None`. -/
def MergedIterator.emit (it : MergedIterator) : List KeyEntry :=
  match h : it.next with
  | none => []
  | some (e, it2) => e :: it2.emit
termination_by it.totalSize
decreasing_by exact next_totalSize h

/-- All entries still inside the iterator: the heap frontier plus the
remaining per-CF entries. -/
def MergedIterator.contents (it : MergedIterator) : List KeyEntry :=
  it.heap ++ it.iters.flatten

theorem flatten_set_perm {L : List (List KeyEntry)} {i : Nat} {e2 : KeyEntry}
    {t : List KeyEntry} (h : i < L.length) (he : L.getD i [] = e2 :: t) :
    L.flatten.Perm (e2 :: (L.set i t).flatten) := by
  induction L generalizing i with
  | nil => simp at h
  | cons a rest ih =>
      cases i with
      | zero =>
          simp only [List.getD, List.get?, Option.getD] at he
          simp [List.set, he]
      | succ j =>
          have hj : j < rest.length := by simpa using h
          have he2 : rest.getD j [] = e2 :: t := by
            simpa [List.getD] using he
          have hp := ih hj he2
          simp only [List.set, List.flatten_cons]
          exact (hp.append_left a).trans List.perm_middle

theorem emit_eq_nil {it : MergedIterator} (h : it.next = none) : it.emit = [] := by
  rw [MergedIterator.emit, h]

theorem emit_eq_cons {it it2 : MergedIterator} {e : KeyEntry}
    (h : it.next = some (e, it2)) : it.emit = e :: it2.emit := by
  rw [MergedIterator.emit, h]

theorem next_perm {it it2 : MergedIterator} {e : KeyEntry}
    (h : it.next = some (e, it2)) : it.contents.Perm (e :: it2.contents) := by
  unfold MergedIterator.next at h
  cases hs : selectMin it.heap with
  | none => rw [hs] at h; exact absurd h (by simp)
  | some p =>
      obtain ⟨top, rest⟩ := p
      rw [hs] at h
      dsimp only at h
      have hperm : it.heap.Perm (top :: rest) := selectMin_perm hs
      cases hh : (it.iters.getD top.pos []).head? with
      | some e2 =>
          rw [hh] at h
          obtain ⟨heq1, heq2⟩ := Prod.mk.inj (Option.some.inj h)
          subst heq2
          rw [← heq1]
          have hL : it.iters.getD top.pos [] = e2 :: (it.iters.getD top.pos []).tail :=
            head_cons_of_head?_eq hh
          have hpos : top.pos < it.iters.length :=
            lt_length_of_getD_ne_nil (by intro hnil; rw [hnil] at hh; simp at hh)
          have hfl := flatten_set_perm hpos hL
          exact (hperm.append_right _).trans
            (((hfl.append_left rest).trans List.perm_middle).cons top)
      | none =>
          rw [hh] at h
          obtain ⟨heq1, heq2⟩ := Prod.mk.inj (Option.some.inj h)
          subst heq2
          rw [← heq1]
          exact hperm.append_right _

theorem mem_rest_of_ne {l l1 l2 : List KeyEntry} {m f : KeyEntry}
    (hl : l = l1 ++ m :: l2) (hf : f ∈ l) (hne : f ≠ m) : f ∈ l1 ++ l2 := by
  subst hl
  rcases List.mem_append.mp hf with h1 | h2
  · exact List.mem_append.mpr (Or.inl h1)
  · rcases List.mem_cons.mp h2 with rfl | h3
    · exact absurd rfl hne
    · exact List.mem_append.mpr (Or.inr h3)

/-- Structural invariant of the merged iterator: every entry of
`iters[i]` carries `pos = i` (entries are tagged with the index of their
column family), and every column family with entries left beyond the heap
frontier is represented in the heap.  `MergedIterator::new` establishes
it and `next` preserves it. -/
structure PosRep (it : MergedIterator) : Prop where
  iters_pos : ∀ (i : Nat) (h : i < it.iters.length), ∀ x ∈ it.iters[i], x.pos = i
  rep : ∀ (i : Nat) (h : i < it.iters.length), it.iters[i] ≠ [] → ∃ f ∈ it.heap, f.pos = i

theorem next_posrep {it it2 : MergedIterator} {e : KeyEntry}
    (hpr : PosRep it) (h : it.next = some (e, it2)) : PosRep it2 := by
  unfold MergedIterator.next at h
  cases hs : selectMin it.heap with
  | none => rw [hs] at h; exact absurd h (by simp)
  | some p =>
      obtain ⟨top, rest⟩ := p
      rw [hs] at h
      dsimp only at h
      obtain ⟨l1, l2, hl, hr⟩ := selectMin_append hs
      cases hh : (it.iters.getD top.pos []).head? with
      | some e2 =>
          rw [hh] at h
          obtain ⟨heq1, heq2⟩ := Prod.mk.inj (Option.some.inj h)
          subst heq2
          have hpos : top.pos < it.iters.length :=
            lt_length_of_getD_ne_nil (by intro hnil; rw [hnil] at hh; simp at hh)
          have hgetD : it.iters.getD top.pos [] = it.iters[top.pos] :=
            List.getD_eq_getElem it.iters [] hpos
          have hcons : it.iters[top.pos] = e2 :: (it.iters.getD top.pos []).tail := by
            rw [← hgetD]
            exact head_cons_of_head?_eq hh
          have he2pos : e2.pos = top.pos :=
            hpr.iters_pos top.pos hpos e2 (by rw [hcons]; exact List.mem_cons_self _ _)
          constructor
          · intro i hi x hx
            have hilen : i < it.iters.length := by simpa using hi
            by_cases hip : i = top.pos
            · subst hip
              have hset : (it.iters.set top.pos (it.iters.getD top.pos []).tail)[top.pos]
                  = (it.iters.getD top.pos []).tail := List.getElem_set_self hi
              rw [hset] at hx
              have hx2 : x ∈ it.iters.getD top.pos [] := (List.tail_sublist _).mem hx
              rw [List.getD_eq_getElem it.iters [] hilen] at hx2
              exact hpr.iters_pos top.pos hilen x hx2
            · have hset : (it.iters.set top.pos (it.iters.getD top.pos []).tail)[i]
                  = it.iters[i] := List.getElem_set_ne (Ne.symm hip) hi
              rw [hset] at hx
              exact hpr.iters_pos i hilen x hx
          · intro i hi hne
            have hilen : i < it.iters.length := by simpa using hi
            by_cases hip : i = top.pos
            · subst hip
              exact ⟨e2, List.mem_cons_self _ _, he2pos⟩
            · have hset : (it.iters.set top.pos (it.iters.getD top.pos []).tail)[i]
                  = it.iters[i] := List.getElem_set_ne (Ne.symm hip) hi
              rw [hset] at hne
              obtain ⟨f, hf, hfpos⟩ := hpr.rep i hilen hne
              have hfne : f ≠ top := fun hft => hip (by rw [← hfpos, hft])
              have hfrest : f ∈ rest := by rw [hr]; exact mem_rest_of_ne hl hf hfne
              exact ⟨f, List.mem_cons_of_mem _ hfrest, hfpos⟩
      | none =>
          rw [hh] at h
          obtain ⟨heq1, heq2⟩ := Prod.mk.inj (Option.some.inj h)
          subst heq2
          have hLnil : it.iters.getD top.pos [] = [] := by
            cases hL2 : it.iters.getD top.pos [] with
            | nil => rfl
            | cons a t => rw [hL2] at hh; simp at hh
          constructor
          · exact hpr.iters_pos
          · intro i hi hne
            obtain ⟨f, hf, hfpos⟩ := hpr.rep i hi hne
            have hfne : f ≠ top := by
              intro hft
              subst hft
              exact hne (by rw [← List.getD_eq_getElem it.iters [] hi, ← hfpos]; exact hLnil)
            have hfrest : f ∈ rest := by rw [hr]; exact mem_rest_of_ne hl hf hfne
            exact ⟨f, hfrest, hfpos⟩

theorem heap_eq_nil_of_next_none {it : MergedIterator} (h : it.next = none) :
    it.heap = [] := by
  unfold MergedIterator.next at h
  cases hs : selectMin it.heap with
  | none => exact selectMin_eq_none.mp hs
  | some p =>
      obtain ⟨a, b⟩ := p
      rw [hs] at h
      dsimp only at h
      cases hh : (it.iters.getD a.pos []).head? <;> rw [hh] at h <;> simp at h

theorem contents_eq_nil_of_next_none {it : MergedIterator} (hpr : PosRep it)
    (h : it.next = none) : it.contents = [] := by
  have hheap := heap_eq_nil_of_next_none h
  have hfl : it.iters.flatten = [] := by
    rw [List.flatten_eq_nil_iff]
    intro L hL
    by_contra hLne
    obtain ⟨i, hi, rfl⟩ := List.mem_iff_getElem.mp hL
    obtain ⟨f, hf, _⟩ := hpr.rep i hi hLne
    rw [hheap] at hf
    exact absurd hf (List.not_mem_nil f)
  simp [MergedIterator.contents, hheap, hfl]

theorem emit_perm_aux : ∀ (n : Nat) (it : MergedIterator), it.totalSize ≤ n →
    PosRep it → it.emit.Perm it.contents := by
  intro n
  induction n with
  | zero =>
      intro it hsz hpr
      cases hnext : it.next with
      | none => rw [emit_eq_nil hnext, contents_eq_nil_of_next_none hpr hnext]
      | some p =>
          obtain ⟨e, it2⟩ := p
          have := next_totalSize hnext
          omega
  | succ n ih =>
      intro it hsz hpr
      cases hnext : it.next with
      | none => rw [emit_eq_nil hnext, contents_eq_nil_of_next_none hpr hnext]
      | some p =>
          obtain ⟨e, it2⟩ := p
          rw [emit_eq_cons hnext]
          have hsz2 := next_totalSize hnext
          have ihp := ih it2 (by omega) (next_posrep hpr hnext)
          exact (ihp.cons e).trans (next_perm hnext).symm

/-- The emitted sequence is, as a multiset, exactly the remaining
contents of the iterator. -/
theorem emit_perm {it : MergedIterator} (hpr : PosRep it) :
    it.emit.Perm it.contents :=
  emit_perm_aux it.totalSize it le_rfl hpr

/-- Ordering invariant of the merged iterator: each heap entry is a lower
bound for the remaining entries of its column family, and each remaining
per-CF list is sorted by key. -/
structure OrdInv (it : MergedIterator) : Prop where
  heap_le : ∀ f ∈ it.heap, ∀ x ∈ it.iters.getD f.pos [], f.key ≤ x.key
  iters_le : ∀ L ∈ it.iters, L.Pairwise (fun a b : KeyEntry => a.key ≤ b.key)

theorem next_ord {it it2 : MergedIterator} {e : KeyEntry}
    (hpr : PosRep it) (hord : OrdInv it) (h : it.next = some (e, it2)) : OrdInv it2 := by
  unfold MergedIterator.next at h
  cases hs : selectMin it.heap with
  | none => rw [hs] at h; exact absurd h (by simp)
  | some p =>
      obtain ⟨top, rest⟩ := p
      rw [hs] at h
      dsimp only at h
      obtain ⟨l1, l2, hl, hr⟩ := selectMin_append hs
      have hrest_sub : rest.Sublist it.heap := selectMin_sublist hs
      cases hh : (it.iters.getD top.pos []).head? with
      | some e2 =>
          rw [hh] at h
          obtain ⟨heq1, heq2⟩ := Prod.mk.inj (Option.some.inj h)
          subst heq2
          have hpos : top.pos < it.iters.length :=
            lt_length_of_getD_ne_nil (by intro hnil; rw [hnil] at hh; simp at hh)
          have hgetD : it.iters.getD top.pos [] = it.iters[top.pos] :=
            List.getD_eq_getElem it.iters [] hpos
          have hcons : it.iters[top.pos] = e2 :: (it.iters.getD top.pos []).tail := by
            rw [← hgetD]
            exact head_cons_of_head?_eq hh
          have he2pos : e2.pos = top.pos :=
            hpr.iters_pos top.pos hpos e2 (by rw [hcons]; exact List.mem_cons_self _ _)
          have hLpair : (it.iters[top.pos]).Pairwise (fun a b : KeyEntry => a.key ≤ b.key) :=
            hord.iters_le _ (it.iters.getElem_mem hpos)
          have hsetlen : (it.iters.set top.pos (it.iters.getD top.pos []).tail).length
              = it.iters.length := List.length_set it.iters top.pos _
          have hgetD_set : (it.iters.set top.pos (it.iters.getD top.pos []).tail).getD
              top.pos [] = (it.iters.getD top.pos []).tail := by
            rw [List.getD_eq_getElem _ [] (by omega)]
            exact List.getElem_set_self (by omega)
          constructor
          · intro f hf x hx
            rcases List.mem_cons.mp hf with rfl | hfrest
            · rw [he2pos, hgetD_set] at hx
              have := (List.pairwise_cons.mp (hcons ▸ hLpair)).1
              exact this x hx
            · have hfheap : f ∈ it.heap := hrest_sub.mem hfrest
              by_cases hfp : f.pos = top.pos
              · rw [hfp, hgetD_set] at hx
                have hx2 : x ∈ it.iters.getD top.pos [] := (List.tail_sublist _).mem hx
                rw [← hfp] at hx2
                exact hord.heap_le f hfheap x hx2
              · by_cases hflen : f.pos < it.iters.length
                · have : (it.iters.set top.pos (it.iters.getD top.pos []).tail).getD
                      f.pos [] = it.iters.getD f.pos [] := by
                    rw [List.getD_eq_getElem _ [] (by simpa using hflen),
                      List.getD_eq_getElem _ [] hflen]
                    exact List.getElem_set_ne (fun hc => hfp hc.symm) (by simpa using hflen)
                  rw [this] at hx
                  exact hord.heap_le f hfheap x hx
                · rw [List.getD_eq_default _ [] (by simp only [List.length_set]; omega)] at hx
                  exact absurd hx (List.not_mem_nil x)
          · intro L hL
            rcases List.mem_or_eq_of_mem_set hL with hL2 | rfl
            · exact hord.iters_le L hL2
            · have hsub : (it.iters.getD top.pos []).tail.Sublist it.iters[top.pos] := by
                rw [← hgetD]
                exact List.tail_sublist _
              exact hLpair.sublist hsub
      | none =>
          rw [hh] at h
          obtain ⟨heq1, heq2⟩ := Prod.mk.inj (Option.some.inj h)
          subst heq2
          constructor
          · intro f hf x hx
            exact hord.heap_le f (hrest_sub.mem hf) x hx
          · exact hord.iters_le

theorem next_heap_le {it it2 : MergedIterator} {e : KeyEntry}
    (hord : OrdInv it) (h : it.next = some (e, it2)) :
    ∀ f ∈ it2.heap, e.key ≤ f.key := by
  unfold MergedIterator.next at h
  cases hs : selectMin it.heap with
  | none => rw [hs] at h; exact absurd h (by simp)
  | some p =>
      obtain ⟨top, rest⟩ := p
      rw [hs] at h
      dsimp only at h
      cases hh : (it.iters.getD top.pos []).head? with
      | some e2 =>
          rw [hh] at h
          obtain ⟨heq1, heq2⟩ := Prod.mk.inj (Option.some.inj h)
          subst heq2
          rw [← heq1]
          intro f hf
          rcases List.mem_cons.mp hf with rfl | hfrest
          · exact hord.heap_le top (selectMin_mem hs) f
              (by rw [head_cons_of_head?_eq hh]; exact List.mem_cons_self _ _)
          · exact selectMin_le hs f hfrest
      | none =>
          rw [hh] at h
          obtain ⟨heq1, heq2⟩ := Prod.mk.inj (Option.some.inj h)
          subst heq2
          rw [← heq1]
          exact selectMin_le hs

theorem next_lower {it it2 : MergedIterator} {e : KeyEntry}
    (hpr : PosRep it) (hord : OrdInv it) (h : it.next = some (e, it2)) :
    ∀ x ∈ it2.contents, e.key ≤ x.key := by
  have hheap := next_heap_le hord h
  have hpr2 := next_posrep hpr h
  have hord2 := next_ord hpr hord h
  intro x hx
  rcases List.mem_append.mp hx with hx | hx
  · exact hheap x hx
  · obtain ⟨L, hLmem, hxL⟩ := List.mem_flatten.mp hx
    obtain ⟨i, hi, rfl⟩ := List.mem_iff_getElem.mp hLmem
    obtain ⟨f, hf, hfpos⟩ := hpr2.rep i hi (List.ne_nil_of_mem hxL)
    refine le_trans (hheap f hf) (hord2.heap_le f hf x ?_)
    rw [hfpos, List.getD_eq_getElem _ [] hi]
    exact hxL

theorem emit_pairwise_aux : ∀ (n : Nat) (it : MergedIterator), it.totalSize ≤ n →
    PosRep it → OrdInv it →
    it.emit.Pairwise (fun a b : KeyEntry => a.key ≤ b.key) := by
  intro n
  induction n with
  | zero =>
      intro it hsz hpr hord
      cases hnext : it.next with
      | none => rw [emit_eq_nil hnext]; exact List.Pairwise.nil
      | some p =>
          obtain ⟨e, it2⟩ := p
          have := next_totalSize hnext
          omega
  | succ n ih =>
      intro it hsz hpr hord
      cases hnext : it.next with
      | none => rw [emit_eq_nil hnext]; exact List.Pairwise.nil
      | some p =>
          obtain ⟨e, it2⟩ := p
          rw [emit_eq_cons hnext]
          have hsz2 := next_totalSize hnext
          have hpr2 := next_posrep hpr hnext
          have hord2 := next_ord hpr hord hnext
          refine List.pairwise_cons.mpr ⟨?_, ih it2 (by omega) hpr2 hord2⟩
          intro y hy
          exact next_lower hpr hord hnext y ((emit_perm hpr2).mem_iff.mp hy)

/-- The emitted sequence of a `MergedIterator` is sorted by key
(non-decreasing). -/
theorem emit_pairwise {it : MergedIterator} (hpr : PosRep it) (hord : OrdInv it) :
    it.emit.Pairwise (fun a b : KeyEntry => a.key ≤ b.key) :=
  emit_pairwise_aux it.totalSize it le_rfl hpr hord

/-! ## MergedIterator construction -/

/-- Whether `k` lies in the scan range `[s, e)`. -/
def inRangeB (s e k : Key) : Bool := decide (s ≤ k) && decide (k < e)

/-- The entries of one column family visible to a forward iterator with
upper bound `e` after `seek(s)`: exactly the entries with key in `[s, e)`,
in CF order. -/
def cfRange (cf : CF) (s e : Key) : CF := cf.filter (fun kv => inRangeB s e kv.1)

/-- The `KeyEntry` stream contributed by the column family at index
`pos`. -/
def mkCfEntries (pos : Nat) (cf : CF) (s e : Key) : List KeyEntry :=
  (cfRange cf s e).map (fun kv => ⟨kv.1, pos, kv.2⟩)

/-- Per-CF entry streams with index tagging (the
`for (pos, cf) in cfs.into_iter().enumerate()` loop of
`MergedIterator::new`). -/
def miRangesFrom (s e : Key) : Nat → List CF → List (List KeyEntry)
  | _, [] => []
  | pos, cf :: rest => mkCfEntries pos cf s e :: miRangesFrom s e (pos + 1) rest

def miRanges (cfs : List CF) (s e : Key) : List (List KeyEntry) :=
  miRangesFrom s e 0 cfs

/-- State built by `MergedIterator::new`: each column family is seeked to
the range start; if a first entry is visible it is pushed onto the heap
and the iterator retains the remaining entries. -/
def MergedIterator.newState (cfs : List CF) (s e : Key) : MergedIterator :=
  ⟨(miRanges cfs s e).map List.tail, (miRanges cfs s e).filterMap List.head?⟩

/-- `MergedIterator::new`, including the `new_iterator_cf` error path.
The `fill_cache` flag is dropped: it has no observable effect on the
emitted entries. -/
def MergedIterator.new (engine : Engine) (s e : Key) :
    Except String MergedIterator :=
  if engine.mergeIterErr then .error "engine error"
  else .ok (MergedIterator.newState engine.cfs s e)

theorem miRangesFrom_length (s e : Key) (n : Nat) (cfs : List CF) :
    (miRangesFrom s e n cfs).length = cfs.length := by
  induction cfs generalizing n with
  | nil => rfl
  | cons cf rest ih => simp [miRangesFrom, ih]

theorem miRangesFrom_getElem (s e : Key) (n : Nat) (cfs : List CF) {i : Nat}
    (h : i < (miRangesFrom s e n cfs).length) (hc : i < cfs.length) :
    (miRangesFrom s e n cfs)[i] = mkCfEntries (n + i) (cfs[i]) s e := by
  induction cfs generalizing n i with
  | nil => simp at hc
  | cons cf rest ih =>
      cases i with
      | zero => simp [miRangesFrom]
      | succ j =>
          have hj : j < (miRangesFrom s e (n + 1) rest).length := by
            simpa [miRangesFrom] using h
          have hcj : j < rest.length := by simpa using hc
          have := ih (n + 1) hj hcj
          simpa [miRangesFrom, Nat.add_assoc, Nat.add_comm 1 j] using this

theorem miRanges_length (cfs : List CF) (s e : Key) :
    (miRanges cfs s e).length = cfs.length :=
  miRangesFrom_length s e 0 cfs

theorem miRanges_getElem (cfs : List CF) (s e : Key) {i : Nat}
    (hm : i < (miRanges cfs s e).length) (hc : i < cfs.length) :
    (miRanges cfs s e)[i] = mkCfEntries i (cfs[i]) s e := by
  have h0 := miRangesFrom_getElem s e 0 cfs hm hc
  rw [Nat.zero_add] at h0
  exact h0

theorem mkCfEntries_pos {p : Nat} {cf : CF} {s e : Key} {x : KeyEntry}
    (h : x ∈ mkCfEntries p cf s e) : x.pos = p := by
  obtain ⟨kv, _, rfl⟩ := List.mem_map.mp h
  rfl

theorem mkCfEntries_mem {p : Nat} {cf : CF} {s e : Key} {x : KeyEntry}
    (h : x ∈ mkCfEntries p cf s e) :
    (x.key, x.value_size) ∈ cf ∧ s ≤ x.key ∧ x.key < e := by
  obtain ⟨kv, hkv, rfl⟩ := List.mem_map.mp h
  have hmp := List.mem_filter.mp hkv
  have hrange := hmp.2
  simp only [inRangeB, Bool.and_eq_true, decide_eq_true_eq] at hrange
  exact ⟨hmp.1, hrange.1, hrange.2⟩

theorem mkCfEntries_pairwise_lt {p : Nat} {cf : CF} {s e : Key}
    (h : cf.Pairwise (fun a b => a.1 < b.1)) :
    (mkCfEntries p cf s e).Pairwise (fun a b : KeyEntry => a.key < b.key) := by
  unfold mkCfEntries cfRange
  exact (List.pairwise_map.mpr ((h.filter _).imp (fun hab => hab)))

theorem mkCfEntries_pairwise_le {p : Nat} {cf : CF} {s e : Key}
    (h : cf.Pairwise (fun a b => a.1 < b.1)) :
    (mkCfEntries p cf s e).Pairwise (fun a b : KeyEntry => a.key ≤ b.key) :=
  (mkCfEntries_pairwise_lt h).imp le_of_lt

theorem mem_miRanges {cfs : List CF} {s e : Key} {L : List KeyEntry}
    (h : L ∈ miRanges cfs s e) :
    ∃ (i : Nat) (hi : i < cfs.length), L = mkCfEntries i (cfs[i]) s e := by
  obtain ⟨i, hi, hL⟩ := List.mem_iff_getElem.mp h
  have hlen : i < cfs.length := by rwa [miRanges_length] at hi
  exact ⟨i, hlen, by rw [← hL, miRanges_getElem cfs s e hi hlen]⟩

theorem newState_posrep (cfs : List CF) (s e : Key) :
    PosRep (MergedIterator.newState cfs s e) := by
  constructor
  · intro i hi x hx
    have hlen : i < (miRanges cfs s e).length := by
      simpa [MergedIterator.newState] using hi
    have hc : i < cfs.length := by rwa [miRanges_length] at hlen
    have hgetm : (MergedIterator.newState cfs s e).iters[i]
        = ((miRanges cfs s e)[i]).tail := by
      simp [MergedIterator.newState]
    rw [hgetm, miRanges_getElem cfs s e hlen hc] at hx
    exact mkCfEntries_pos ((List.tail_sublist _).mem hx)
  · intro i hi hne
    have hlen : i < (miRanges cfs s e).length := by
      simpa [MergedIterator.newState] using hi
    have hc : i < cfs.length := by rwa [miRanges_length] at hlen
    have hgetm : (MergedIterator.newState cfs s e).iters[i]
        = ((miRanges cfs s e)[i]).tail := by
      simp [MergedIterator.newState]
    rw [hgetm] at hne
    cases hL : (miRanges cfs s e)[i] with
    | nil => rw [hL] at hne; simp at hne
    | cons a t =>
        refine ⟨a, ?_, ?_⟩
        · exact List.mem_filterMap.mpr
            ⟨(miRanges cfs s e)[i], (miRanges cfs s e).getElem_mem hlen,
              by rw [hL]; rfl⟩
        · have ha : a ∈ (miRanges cfs s e)[i] := by
            rw [hL]; exact List.mem_cons_self _ _
          rw [miRanges_getElem cfs s e hlen hc] at ha
          exact mkCfEntries_pos ha

theorem newState_ord {cfs : List CF} (s e : Key)
    (hsort : ∀ cf ∈ cfs, cf.Pairwise (fun a b => a.1 < b.1)) :
    OrdInv (MergedIterator.newState cfs s e) := by
  constructor
  · intro f hf x hx
    simp only [MergedIterator.newState] at hf hx
    obtain ⟨L, hLmem, hLhead⟩ := List.mem_filterMap.mp hf
    obtain ⟨i, hi, rfl⟩ := mem_miRanges hLmem
    have hfpos : f.pos = i := mkCfEntries_pos (List.mem_of_mem_head? hLhead)
    rw [hfpos] at hx
    have hmlen : i < (miRanges cfs s e).length := by
      rw [miRanges_length]; exact hi
    have hplen : i < ((miRanges cfs s e).map List.tail).length := by
      rw [List.length_map]; exact hmlen
    rw [List.getD_eq_getElem _ [] hplen] at hx
    have hgetm : ((miRanges cfs s e).map List.tail)[i]
        = ((miRanges cfs s e)[i]).tail := by
      simp
    rw [hgetm, miRanges_getElem cfs s e hmlen hi] at hx
    have hpair := mkCfEntries_pairwise_le (p := i) (s := s) (e := e)
      (hsort _ (cfs.getElem_mem hi))
    have hLcons : mkCfEntries i (cfs[i]) s e
        = f :: (mkCfEntries i (cfs[i]) s e).tail :=
      head_cons_of_head?_eq hLhead
    have hpair2 : List.Pairwise (fun a b : KeyEntry => a.key ≤ b.key)
        (f :: (mkCfEntries i (cfs[i]) s e).tail) := by
      rw [← hLcons]; exact hpair
    exact (List.pairwise_cons.mp hpair2).1 x hx
  · intro L hL
    simp only [MergedIterator.newState] at hL
    obtain ⟨L0, hL0, rfl⟩ := List.mem_map.mp hL
    obtain ⟨i, hi, rfl⟩ := mem_miRanges hL0
    exact (mkCfEntries_pairwise_le (hsort _ (cfs.getElem_mem hi))).sublist
      (List.tail_sublist _)

theorem headTail_perm (LS : List (List KeyEntry)) :
    (LS.filterMap List.head? ++ (LS.map List.tail).flatten).Perm LS.flatten := by
  induction LS with
  | nil => simp
  | cons L rest ih =>
      cases L with
      | nil => simpa using ih
      | cons a t =>
          simp only [List.filterMap_cons, List.map_cons, List.flatten_cons,
            List.head?_cons, List.tail_cons]
          have h2 : ((rest.filterMap List.head?) ++ (t ++ (rest.map List.tail).flatten)).Perm
              (t ++ ((rest.filterMap List.head?) ++ (rest.map List.tail).flatten)) := by
            rw [← List.append_assoc, ← List.append_assoc]
            exact List.perm_append_comm.append_right _
          exact (h2.trans (ih.append_left t)).cons a

/-- The contents of the freshly constructed iterator are exactly the
per-CF in-range entries. -/
theorem newState_contents_perm (cfs : List CF) (s e : Key) :
    (MergedIterator.newState cfs s e).contents.Perm (miRanges cfs s e).flatten :=
  headTail_perm (miRanges cfs s e)

/-! ## bound_keys -/

/-- First key of `cf` visible in `[s, e)`: result of `seek(start_key)` on
the upper-bounded iterator.  The extra `iter.next()` the source performs
after an invalid seek is modelled as yielding nothing: a seek past the
upper bound leaves no further positions. -/
def cfFirstKey (cf : CF) (s e : Key) : Option Key :=
  ((cfRange cf s e).head?).map Prod.fst

/-- Last key of `cf` below the upper bound `e`: result of
`seek(SeekKey::End)` on the upper-bounded iterator.  The range start
plays no role here. -/
def cfLastKey (cf : CF) (e : Key) : Option Key :=
  ((cf.filter fun kv => decide (kv.1 < e)).getLast?).map Prod.fst

/-- One iteration of the `for cf in cfs` fold inside `bound_keys`:
merge the column family minimum into `first_key` and its maximum into
`last_key`. -/
def boundStep (s e : Key) (acc : Option Key × Option Key) (cf : CF) :
    Option Key × Option Key :=
  let key1 := cfFirstKey cf s e
  let first := match acc.1, key1 with
    | some fk, some k => if k < fk then some k else some fk
    | some fk, none => some fk
    | none, k => k
  let key2 := cfLastKey cf e
  let last := match acc.2, key2 with
    | some lk, some k => if lk < k then some k else some lk
    | some lk, none => some lk
    | none, k => k
  (first, last)

/-- `bound_keys`: fold per-CF minima and maxima over all column
families; `(Some, Some)` yields the pair, `(None, None)` yields `None`,
and a mixed outcome is an error. -/
def bound_keys (engine : Engine) (s e : Key) :
    Except String (Option (Key × Key)) :=
  if engine.boundIterErr then .error "iterator error"
  else
    match engine.cfs.foldl (boundStep s e) (none, none) with
    | (some fk, some lk) => .ok (some (fk, lk))
    | (none, none) => .ok none
    | _ => .error "invalid bound"

/-- Some key of `cf` lies in `[s, e)`. -/
def cfHasInRange (cf : CF) (s e : Key) : Prop := ∃ kv ∈ cf, s ≤ kv.1 ∧ kv.1 < e

/-- Some key of `cf` lies below `e`. -/
def cfHasBelow (cf : CF) (e : Key) : Prop := ∃ kv ∈ cf, kv.1 < e

theorem cfFirstKey_isSome_iff {cf : CF} {s e : Key} :
    (cfFirstKey cf s e).isSome = true ↔ cfHasInRange cf s e := by
  unfold cfFirstKey cfHasInRange
  simp only [Option.isSome_map']
  rw [List.head?_isSome]
  constructor
  · intro h
    obtain ⟨kv, hkv⟩ := List.exists_mem_of_ne_nil _ h
    have := List.mem_filter.mp hkv
    refine ⟨kv, this.1, ?_⟩
    have h2 := this.2
    simp only [inRangeB, Bool.and_eq_true, decide_eq_true_eq] at h2
    exact h2
  · rintro ⟨kv, hkv, h1, h2⟩
    exact List.ne_nil_of_mem
      (List.mem_filter.mpr ⟨hkv, by simp [inRangeB, h1, h2]⟩)

theorem cfLastKey_isSome_iff {cf : CF} {e : Key} :
    (cfLastKey cf e).isSome = true ↔ cfHasBelow cf e := by
  unfold cfLastKey cfHasBelow
  simp only [Option.isSome_map']
  rw [List.getLast?_isSome]
  constructor
  · intro h
    obtain ⟨kv, hkv⟩ := List.exists_mem_of_ne_nil _ h
    have := List.mem_filter.mp hkv
    exact ⟨kv, this.1, by simpa using this.2⟩
  · rintro ⟨kv, hkv, h1⟩
    exact List.ne_nil_of_mem (List.mem_filter.mpr ⟨hkv, by simpa using h1⟩)

theorem le_getLast_of_pairwise {l : CF} {kv kv2 : Key × Nat}
    (hp : l.Pairwise (fun a b => a.1 < b.1)) (hm : kv ∈ l)
    (hl : l.getLast? = some kv2) : kv.1 ≤ kv2.1 := by
  induction l with
  | nil => simp at hm
  | cons a t ih =>
      cases t with
      | nil =>
          simp at hl hm
          subst hm
          simp [hl]
      | cons b t2 =>
          have hl2 : (b :: t2).getLast? = some kv2 := hl
          rcases List.mem_cons.mp hm with rfl | hmt
          · have hmem2 : kv2 ∈ b :: t2 := List.mem_of_mem_getLast? hl2
            exact le_of_lt ((List.pairwise_cons.mp hp).1 kv2 hmem2)
          · exact ih (List.pairwise_cons.mp hp).2 hmt hl2

/-- In a sorted column family, the in-range minimum is bounded by the
below-`e` maximum. -/
theorem cfFirst_le_cfLast {cf : CF} {s e : Key} {k : Key}
    (hsort : cf.Pairwise (fun a b => a.1 < b.1))
    (h : cfFirstKey cf s e = some k) :
    ∃ k2, cfLastKey cf e = some k2 ∧ k ≤ k2 := by
  unfold cfFirstKey at h
  cases hh : (cfRange cf s e).head? with
  | none => rw [hh] at h; simp at h
  | some kv =>
      rw [hh] at h
      simp only [Option.map_some', Option.some.injEq] at h
      subst h
      have hkvmem : kv ∈ cfRange cf s e := List.mem_of_mem_head? hh
      have hmp := List.mem_filter.mp hkvmem
      have hrange := hmp.2
      simp only [inRangeB, Bool.and_eq_true, decide_eq_true_eq] at hrange
      have hbelow : kv ∈ cf.filter fun kv2 => decide (kv2.1 < e) :=
        List.mem_filter.mpr ⟨hmp.1, by simpa using hrange.2⟩
      have hne : (cf.filter fun kv2 => decide (kv2.1 < e)) ≠ [] :=
        List.ne_nil_of_mem hbelow
      obtain ⟨kv2, hkv2⟩ := Option.isSome_iff_exists.mp
        (List.getLast?_isSome.mpr hne)
      refine ⟨kv2.1, by simp [cfLastKey, hkv2], ?_⟩
      exact le_getLast_of_pairwise (hsort.filter _) hbelow hkv2

theorem boundStep_first_isSome (s e : Key) (acc : Option Key × Option Key) (cf : CF) :
    ((boundStep s e acc cf).1.isSome = true) ↔
      (acc.1.isSome = true ∨ (cfFirstKey cf s e).isSome = true) := by
  obtain ⟨a1, a2⟩ := acc
  cases a1 <;> cases h : cfFirstKey cf s e <;>
    simp [boundStep, h] <;> split <;> simp

theorem boundStep_last_isSome (s e : Key) (acc : Option Key × Option Key) (cf : CF) :
    ((boundStep s e acc cf).2.isSome = true) ↔
      (acc.2.isSome = true ∨ (cfLastKey cf e).isSome = true) := by
  obtain ⟨a1, a2⟩ := acc
  cases a2 <;> cases h : cfLastKey cf e <;>
    simp [boundStep, h] <;> split <;> simp

theorem foldl_first_isSome (s e : Key) (cfs : List CF) (acc : Option Key × Option Key) :
    ((cfs.foldl (boundStep s e) acc).1.isSome = true) ↔
      (acc.1.isSome = true ∨ ∃ cf ∈ cfs, cfHasInRange cf s e) := by
  induction cfs generalizing acc with
  | nil => simp
  | cons cf rest ih =>
      rw [List.foldl_cons, ih, boundStep_first_isSome]
      rw [cfFirstKey_isSome_iff]
      simp [or_assoc]

theorem foldl_last_isSome (s e : Key) (cfs : List CF) (acc : Option Key × Option Key) :
    ((cfs.foldl (boundStep s e) acc).2.isSome = true) ↔
      (acc.2.isSome = true ∨ ∃ cf ∈ cfs, cfHasBelow cf e) := by
  induction cfs generalizing acc with
  | nil => simp
  | cons cf rest ih =>
      rw [List.foldl_cons, ih, boundStep_last_isSome]
      rw [cfLastKey_isSome_iff]
      simp [or_assoc]

theorem boundStep_min_le_max {s e : Key} {acc : Option Key × Option Key} {cf : CF}
    (hsort : cf.Pairwise (fun a b => a.1 < b.1))
    (hacc : ∀ fk, acc.1 = some fk → ∃ lk, acc.2 = some lk ∧ fk ≤ lk) :
    ∀ fk, (boundStep s e acc cf).1 = some fk →
      ∃ lk, (boundStep s e acc cf).2 = some lk ∧ fk ≤ lk := by
  intro fk hfk
  obtain ⟨a1, a2⟩ := acc
  cases ha1 : a1 with
  | some a =>
      obtain ⟨la, hla, hala⟩ := hacc a (by rw [ha1])
      dsimp only at hla
      subst hla
      cases hk1 : cfFirstKey cf s e with
      | some k =>
          obtain ⟨k2, hk2, hkk2⟩ := cfFirst_le_cfLast hsort hk1
          subst ha1
          simp only [boundStep, hk1, hk2] at hfk ⊢
          by_cases hlt : k < a
          · rw [if_pos hlt] at hfk
            injection hfk with hfk
            subst hfk
            by_cases hlt2 : la < k2
            · exact ⟨k2, by rw [if_pos hlt2], hkk2⟩
            · exact ⟨la, by rw [if_neg hlt2], le_trans hkk2 (le_of_not_lt hlt2)⟩
          · rw [if_neg hlt] at hfk
            injection hfk with hfk
            subst hfk
            by_cases hlt2 : la < k2
            · exact ⟨k2, by rw [if_pos hlt2], le_trans hala (le_of_lt hlt2)⟩
            · exact ⟨la, by rw [if_neg hlt2], hala⟩
      | none =>
          subst ha1
          simp only [boundStep, hk1] at hfk ⊢
          injection hfk with hfk
          subst hfk
          cases hk2 : cfLastKey cf e with
          | some k2 =>
              simp only [hk2]
              by_cases hlt2 : la < k2
              · exact ⟨k2, by rw [if_pos hlt2], le_trans hala (le_of_lt hlt2)⟩
              · exact ⟨la, by rw [if_neg hlt2], hala⟩
          | none => exact ⟨la, by simp [hk2], hala⟩
  | none =>
      subst ha1
      cases hk1 : cfFirstKey cf s e with
      | some k =>
          obtain ⟨k2, hk2, hkk2⟩ := cfFirst_le_cfLast hsort hk1
          simp only [boundStep, hk1, hk2] at hfk ⊢
          injection hfk with hfk
          subst hfk
          cases ha2 : a2 with
          | some la =>
              by_cases hlt2 : la < k2
              · exact ⟨k2, by simp [hlt2], hkk2⟩
              · exact ⟨la, by simp [hlt2], le_trans hkk2 (le_of_not_lt hlt2)⟩
          | none => exact ⟨k2, rfl, hkk2⟩
      | none =>
          simp only [boundStep, hk1] at hfk
          simp at hfk

theorem foldl_min_le_max {s e : Key} {cfs : List CF}
    (hsort : ∀ cf ∈ cfs, cf.Pairwise (fun a b => a.1 < b.1))
    (acc : Option Key × Option Key)
    (hacc : ∀ fk, acc.1 = some fk → ∃ lk, acc.2 = some lk ∧ fk ≤ lk) :
    ∀ fk, (cfs.foldl (boundStep s e) acc).1 = some fk →
      ∃ lk, (cfs.foldl (boundStep s e) acc).2 = some lk ∧ fk ≤ lk := by
  induction cfs generalizing acc with
  | nil => exact hacc
  | cons cf rest ih =>
      rw [List.foldl_cons]
      exact ih (fun cf2 h2 => hsort cf2 (List.mem_cons_of_mem _ h2)) _
        (boundStep_min_le_max (hsort cf (List.mem_cons_self _ _)) hacc)

/-- Full characterisation of `bound_keys` over a well-formed engine:
`Ok(None)` iff no column family holds a key below `end_key`;
`Ok(Some(min, max))` with `min ≤ max` iff some column family holds a key
inside `[start_key, end_key)`; an error iff the range is empty but some
key below `end_key` exists (it then necessarily lies below
`start_key`). -/
theorem bound_keys_spec (engine : Engine) (s e : Key)
    (hsort : ∀ cf ∈ engine.cfs, cf.Pairwise (fun a b => a.1 < b.1))
    (herr : engine.boundIterErr = false) :
    (bound_keys engine s e = .ok none ↔ ¬ ∃ cf ∈ engine.cfs, cfHasBelow cf e) ∧
    ((∃ fk lk, bound_keys engine s e = .ok (some (fk, lk)) ∧ fk ≤ lk) ↔
      ∃ cf ∈ engine.cfs, cfHasInRange cf s e) ∧
    ((∃ msg, bound_keys engine s e = .error msg) ↔
      ((¬ ∃ cf ∈ engine.cfs, cfHasInRange cf s e) ∧
        ∃ cf ∈ engine.cfs, cfHasBelow cf e)) := by
  have himp : (∃ cf ∈ engine.cfs, cfHasInRange cf s e) →
      ∃ cf ∈ engine.cfs, cfHasBelow cf e := by
    rintro ⟨cf, hcf, kv, hkv, h1, h2⟩
    exact ⟨cf, hcf, kv, hkv, h2⟩
  have hmin := foldl_min_le_max (s := s) (e := e) hsort
    (none, none) (by intro fk h; simp at h)
  have hfirst := foldl_first_isSome s e engine.cfs (none, none)
  have hlast := foldl_last_isSome s e engine.cfs (none, none)
  simp only [Option.isSome_none, Bool.false_eq_true, false_or] at hfirst hlast
  unfold bound_keys
  rw [if_neg (by simp [herr])]
  rcases hF : engine.cfs.foldl (boundStep s e) (none, none) with ⟨F1, F2⟩
  rw [hF] at hmin hfirst hlast
  dsimp only at hmin hfirst hlast
  cases F1 with
  | some fk =>
      cases F2 with
      | some lk =>
          have hinr : ∃ cf ∈ engine.cfs, cfHasInRange cf s e := by
            rw [← hfirst]; rfl
          have hbel : ∃ cf ∈ engine.cfs, cfHasBelow cf e := himp hinr
          refine ⟨?_, ?_, ?_⟩
          · simp only [iff_iff_implies_and_implies]
            exact ⟨fun h => by simp at h, fun h => absurd hbel h⟩
          · simp only [iff_iff_implies_and_implies]
            refine ⟨fun _ => hinr, fun _ => ?_⟩
            obtain ⟨lk2, hlk2, hle⟩ := hmin fk rfl
            injection hlk2 with hlk2
            subst hlk2
            exact ⟨fk, lk, rfl, hle⟩
          · simp only [iff_iff_implies_and_implies]
            exact ⟨fun ⟨m, hm⟩ => by simp at hm, fun ⟨hni, _⟩ => absurd hinr hni⟩
      | none =>
          exfalso
          obtain ⟨lk, hlk, _⟩ := hmin fk rfl
          simp at hlk
  | none =>
      have hninr : ¬ ∃ cf ∈ engine.cfs, cfHasInRange cf s e := by
        rw [← hfirst]; simp
      cases F2 with
      | some lk =>
          have hbel : ∃ cf ∈ engine.cfs, cfHasBelow cf e := by
            rw [← hlast]; rfl
          refine ⟨?_, ?_, ?_⟩
          · simp only [iff_iff_implies_and_implies]
            exact ⟨fun h => by simp at h, fun h => absurd hbel h⟩
          · simp only [iff_iff_implies_and_implies]
            refine ⟨fun ⟨fk, lk2, hc, _⟩ => by simp at hc, fun h => absurd h hninr⟩
          · constructor
            · intro h
              exact ⟨hninr, hbel⟩
            · intro h
              exact ⟨"invalid bound", rfl⟩
      | none =>
          have hnbel : ¬ ∃ cf ∈ engine.cfs, cfHasBelow cf e := by
            rw [← hlast]; simp
          refine ⟨?_, ?_, ?_⟩
          · constructor
            · intro _
              exact hnbel
            · intro _
              rfl
          · simp only [iff_iff_implies_and_implies]
            refine ⟨fun ⟨fk, lk2, hc, _⟩ => by simp at hc, fun h => absurd h hninr⟩
          · simp only [iff_iff_implies_and_implies]
            exact ⟨fun ⟨m, hm⟩ => by simp at hm, fun ⟨_, hb⟩ => absurd hb hnbel⟩

/-! ## Runner -/

/-- The `Checker` trait as implemented by the optional priority checker,
over an abstract internal state `σ`: `prev_check` takes `&self`
(read-only), `find_split_key` takes `&mut self` (stateful), `finish`
resets.  `name()` is diagnostics-only and omitted. -/
structure PriorityChecker (σ : Type) where
  prev_check : σ → Region → Option (Key × Key) → Bool
  find_split_key : σ → Key → Nat → Option Key × σ
  finish : σ → σ

/-- Modelled from the spec: `keys::enc_start_key` is code of this
repository outside `src/`; per the spec the region start key is prefixed
with the data prefix byte `z` (0x7a = 122). -/
def encStartKey (r : Region) : Key := 122 :: r.start_key

/-- Modelled from the spec: `keys::enc_end_key` is code of this
repository outside `src/`; an empty region end key means unbounded to
the right and is encoded as the byte just past the data prefix
(0x7b = 123), otherwise the end key is prefixed like the start key. -/
def encEndKey (r : Region) : Key :=
  if r.end_key = [] then [123] else 122 :: r.end_key

/-- Modelled from the spec: `keys::origin_key` is code of this
repository outside `src/`; it strips the one-byte data prefix `z` from
a data key. -/
def originKey (k : Key) : Key := k.tail

/-- `new_split_region`: build the `SplitRegion` message, un-prefixing
the chosen split key with `keys::origin_key`. -/
def new_split_region (region_id : Nat) (epoch : Nat) (split_key : Key) : Msg :=
  Msg.splitRegion region_id epoch (originKey split_key)

/-- Mutable state of the streaming loop in `Runner::check_split`,
together with instrumentation: `fedP` and `fedS` record the keys fed to
the priority resp. size checker (the `find_split_key` arguments) in
order.  The instrumentation is sound: it only accumulates and is never
read by the loop. -/
structure LoopAcc (σ : Type) where
  priority_split_key : Option Key
  size_split_key : Option Key
  size_checker : SizeChecker
  priority_checker : Option (PriorityChecker σ × σ)
  fedP : List Key
  fedS : List Key

/-- Second half of the loop body of `Runner::check_split`: the
`if !skip_size_checker` block.  Returns whether the loop breaks,
together with the updated state. -/
def scanStepSize {σ : Type} (skipS : Bool) (ent : KeyEntry) (acc : LoopAcc σ) :
    Bool × LoopAcc σ :=
  if skipS then (false, acc)
  else
    let r := acc.size_checker.find_split_key ent.key ent.value_size
    let acc1 := { acc with size_checker := r.2, fedS := acc.fedS ++ [ent.key] }
    match r.1 with
    | some key => (true, { acc1 with size_split_key := some key })
    | none => (false, acc1)

/-- One iteration of the streaming loop body of `Runner::check_split`:
if the priority checker is not skipped it is fed first (when present);
if it yields a key the loop breaks with that key recorded; otherwise
control falls through to the size-checker block. -/
def scanStep {σ : Type} (skipP skipS : Bool) (ent : KeyEntry) (acc : LoopAcc σ) :
    Bool × LoopAcc σ :=
  if skipP then scanStepSize skipS ent acc
  else
    match acc.priority_checker with
    | none => scanStepSize skipS ent acc
    | some Ps =>
        let r := Ps.1.find_split_key Ps.2 ent.key ent.value_size
        let acc1 := { acc with
          priority_checker := some (Ps.1, r.2)
          fedP := acc.fedP ++ [ent.key] }
        match r.1 with
        | some key => (true, { acc1 with priority_split_key := some key })
        | none => scanStepSize skipS ent acc1

/-- The `while let Some(e) = iter.next()` streaming loop of
`Runner::check_split`. -/
def scanLoop {σ : Type} (skipP skipS : Bool) (it : MergedIterator)
    (acc : LoopAcc σ) : LoopAcc σ :=
  match h : it.next with
  | none => acc
  | some (ent, it2) =>
      match scanStep skipP skipS ent acc with
      | (true, acc2) => acc2
      | (false, acc2) => scanLoop skipP skipS it2 acc2
termination_by it.totalSize
decreasing_by exact next_totalSize h

/-- Result of one `Runner::check_split` call: the messages sent on the
channel (in order) and the checker states afterwards. -/
structure RunResult (σ : Type) where
  msgs : List Msg
  size_checker : SizeChecker
  priority_checker : Option (PriorityChecker σ × σ)

/-- `self.priority_checker.as_ref().map_or(true, |c| c.prev_check(..))`. -/
def pcPrevCheck {σ : Type} (pc : Option (PriorityChecker σ × σ)) (region : Region)
    (bks : Option (Key × Key)) : Bool :=
  match pc with
  | none => true
  | some Ps => Ps.1.prev_check Ps.2 region bks

/-- `self.priority_checker.as_mut().map(|c| c.finish())`. -/
def pcFinish {σ : Type} (pc : Option (PriorityChecker σ × σ)) :
    Option (PriorityChecker σ × σ) :=
  match pc with
  | none => none
  | some Ps => some (Ps.1, Ps.1.finish Ps.2)

/-- `Runner::check_split`: probe the bounds, run the pre-checks, stream
the merged iterator through the un-skipped checkers, finish the
checkers, and publish at most one `SplitRegion` decision (priority key
first, else size key, else nothing).  Messages are collected in send
order; a failed `try_send` only logs, so sending is modelled as always
recording the message. -/
def checkSplit {σ : Type} (engine : Engine) (region : Region)
    (size_checker : SizeChecker) (pc : Option (PriorityChecker σ × σ)) :
    RunResult σ :=
  let start_key := encStartKey region
  let end_key := encEndKey region
  match bound_keys engine start_key end_key with
  | .error _ => ⟨[], size_checker, pc⟩
  | .ok bks =>
    let pre := size_checker.prev_check engine region
    let skip_size_checker := pre.1
    let msgs1 := pre.2
    let skip_priority_checker := pcPrevCheck pc region bks
    if skip_priority_checker && skip_size_checker then ⟨msgs1, size_checker, pc⟩
    else
      match MergedIterator.new engine start_key end_key with
      | .error _ => ⟨msgs1, size_checker.finish, pcFinish pc⟩
      | .ok it =>
          let r := scanLoop skip_priority_checker skip_size_checker it
            ⟨none, none, size_checker, pc, [], []⟩
          let sc2 := r.size_checker.finish
          let pc2 := pcFinish r.priority_checker
          match r.priority_split_key, r.size_split_key with
          | some key, _ =>
              ⟨msgs1 ++ [new_split_region region.id region.epoch key], sc2, pc2⟩
          | none, some key =>
              ⟨msgs1 ++ [new_split_region region.id region.epoch key], sc2, pc2⟩
          | none, none => ⟨msgs1, sc2, pc2⟩

/-! ## Claims -/

theorem feedSum_append (l1 l2 : List (Key × Nat)) :
    feedSum (l1 ++ l2) = feedSum l1 + feedSum l2 := by
  simp [feedSum]

theorem feedSum_take_le (l : List (Key × Nat)) (i : Nat) :
    feedSum (l.take i) ≤ feedSum l := by
  conv_rhs => rw [← List.take_append_drop i l]
  rw [feedSum_append]
  omega

theorem feedSum_take_mono (l : List (Key × Nat)) {i j : Nat} (h : i ≤ j) :
    feedSum (l.take i) ≤ feedSum (l.take j) := by
  have h2 : l.take i = (l.take j).take i := by
    rw [List.take_take, Nat.min_eq_left h]
  rw [h2]
  exact feedSum_take_le _ i

/-- The value held in `split_key` right after the recording step inside
one `find_split_key` call: the fed key if `split_key` was unset and the
updated `current_size` crossed `split_size`, the previous value
otherwise. -/
def recordedKey (c : SizeChecker) (k : Key) (v : Nat) : Option Key :=
  if c.split_key = none ∧ c.split_size < (c.current_size + k.length + v) % 2 ^ 64
  then some k else c.split_key

theorem find_split_key_spec (c : SizeChecker) (k : Key) (v : Nat) :
    (c.find_split_key k v).1 =
      (if (recordedKey c k v).isSome = true ∧
          c.region_max_size ≤ (c.current_size + k.length + v) % 2 ^ 64
        then recordedKey c k v else none) ∧
    (c.find_split_key k v).2.split_key =
      (if (recordedKey c k v).isSome = true ∧
          c.region_max_size ≤ (c.current_size + k.length + v) % 2 ^ 64
        then none else recordedKey c k v) := by
  unfold SizeChecker.find_split_key recordedKey
  dsimp only
  constructor <;> split <;> split <;> simp_all

/-- Claim C1: for the `SizeChecker`, starting from a fresh task state,
after N `find_split_key` calls `current_size` equals the sum over the
calls of `key.len() + value_size` (stated under the side condition that
the sum stays below `2 ^ 64`, so the `u64` accumulator does not wrap)
and never decreases within the task; on each call `split_key` is set to
a copy of the fed key exactly when it was unset and the updated
`current_size` exceeds `split_size`; and the call returns
`Some(split_key)` exactly when a split key is recorded and
`current_size ≥ region_max_size`, otherwise `None` (returning also
takes the recorded key out). -/
theorem claim_C1 (region_max_size split_size : Nat) (l : List (Key × Nat))
    (hov : feedSum l < 2 ^ 64) :
    ((feedList (SizeChecker.new region_max_size split_size) l).current_size
        = feedSum l) ∧
    (∀ i j, i ≤ j →
      (feedList (SizeChecker.new region_max_size split_size) (l.take i)).current_size ≤
        (feedList (SizeChecker.new region_max_size split_size) (l.take j)).current_size) ∧
    (∀ (c : SizeChecker) (k : Key) (v : Nat),
      (c.find_split_key k v).2.current_size
          = (c.current_size + k.length + v) % 2 ^ 64 ∧
      (c.find_split_key k v).1 =
        (if (recordedKey c k v).isSome = true ∧
            c.region_max_size ≤ (c.current_size + k.length + v) % 2 ^ 64
          then recordedKey c k v else none) ∧
      (c.find_split_key k v).2.split_key =
        (if (recordedKey c k v).isSome = true ∧
            c.region_max_size ≤ (c.current_size + k.length + v) % 2 ^ 64
          then none else recordedKey c k v)) := by
  refine ⟨?_, ?_, ?_⟩
  · rw [feedList_current_size _ _ (by simp [SizeChecker.new])]
    simp only [SizeChecker.new, Nat.zero_add]
    exact Nat.mod_eq_of_lt hov
  · intro i j hij
    rw [feedList_current_size _ _ (by simp [SizeChecker.new]),
        feedList_current_size _ _ (by simp [SizeChecker.new])]
    simp only [SizeChecker.new, Nat.zero_add]
    rw [Nat.mod_eq_of_lt (lt_of_le_of_lt (feedSum_take_le l i) hov),
        Nat.mod_eq_of_lt (lt_of_le_of_lt (feedSum_take_le l j) hov)]
    exact feedSum_take_mono l hij
  · intro c k v
    exact ⟨find_split_key_current_size c k v, (find_split_key_spec c k v).1,
      (find_split_key_spec c k v).2⟩

theorem claim_C1_witness :
    feedSum [(([1, 2] : Key), 3)] < 2 ^ 64 ∧
    (feedList (SizeChecker.new 10 4) [(([1, 2] : Key), 3)]).current_size
      = feedSum [(([1, 2] : Key), 3)] :=
  ⟨by decide, (claim_C1 10 4 [(([1, 2] : Key), 3)] (by decide)).1⟩

/-- Claim C2 (counterexample): on an engine whose approximate-size query
fails, `SizeChecker::prev_check` returns `false` — the streaming scan is
NOT skipped for the size checker — refuting the claim that it returns
`true`. -/
theorem claim_C2_counterexample :
    (Engine.mk [] none false false).approx = none ∧
    ((SizeChecker.new 100 60).prev_check (Engine.mk [] none false false)
        (Region.mk 1 [] [] 0)).1 = false :=
  ⟨rfl, rfl⟩

/-- Claim C2 (amended): if the engine's approximate-size query fails,
`prev_check` returns `false`, i.e. the streaming scan is NOT skipped for
the size checker, and no `ApproximateRegionSize` message is sent. -/
theorem claim_C2_amended (c : SizeChecker) (engine : Engine) (region : Region)
    (h : engine.approx = none) :
    c.prev_check engine region = (false, []) := by
  unfold SizeChecker.prev_check check_size
  rw [h]

theorem claim_C2_witness :
    (Engine.mk [] none false false).approx = none ∧
    ((SizeChecker.new 100 60).prev_check (Engine.mk [] none false false)
        (Region.mk 1 [] [] 0)) = (false, []) :=
  ⟨rfl, claim_C2_amended _ _ _ rfl⟩

theorem countP_mkCfEntries_ne {k : Key} {p n : Nat} (cf : CF) {s e : Key}
    (hne : n ≠ p) :
    (mkCfEntries n cf s e).countP
      (fun ent => decide (ent.key = k) && decide (ent.pos = p)) = 0 := by
  rw [List.countP_eq_zero]
  intro x hx
  simp [mkCfEntries_pos hx, hne]

theorem countP_le_one_of_pairwise_lt {k : Key} {p : Nat} {L : List KeyEntry}
    (h : L.Pairwise (fun a b : KeyEntry => a.key < b.key)) :
    L.countP (fun ent => decide (ent.key = k) && decide (ent.pos = p)) ≤ 1 := by
  induction L with
  | nil => simp
  | cons a t ih =>
      rw [List.countP_cons]
      have ha := (List.pairwise_cons.mp h).1
      have ih2 := ih (List.pairwise_cons.mp h).2
      by_cases hq : a.key = k ∧ a.pos = p
      · have ht : t.countP (fun ent => decide (ent.key = k) && decide (ent.pos = p)) = 0 := by
          rw [List.countP_eq_zero]
          intro x hx
          simp only [Bool.and_eq_true, decide_eq_true_eq, not_and]
          intro hxk _
          have hlt := ha x hx
          rw [hq.1, hxk] at hlt
          exact absurd hlt (lt_irrefl k)
        have hqd : (decide (a.key = k) && decide (a.pos = p)) = true := by
          simp [hq.1, hq.2]
        rw [ht, hqd]
        simp
      · have hqd : (decide (a.key = k) && decide (a.pos = p)) = false := by
          rcases not_and_or.mp hq with h1 | h1 <;> simp [h1]
        rw [hqd]
        simpa using ih2

theorem countP_miRangesFrom {s e k : Key} {p : Nat} :
    ∀ (n : Nat) (cfs : List CF),
      (∀ cf ∈ cfs, cf.Pairwise (fun a b => a.1 < b.1)) →
      ((miRangesFrom s e n cfs).flatten.countP
          (fun ent => decide (ent.key = k) && decide (ent.pos = p)) ≤ 1) ∧
      (p < n → (miRangesFrom s e n cfs).flatten.countP
          (fun ent => decide (ent.key = k) && decide (ent.pos = p)) = 0) := by
  intro n cfs
  induction cfs generalizing n with
  | nil => intro _; simp [miRangesFrom]
  | cons cf rest ih =>
      intro hsort
      have ih2 := ih (n + 1) (fun c hc => hsort c (List.mem_cons_of_mem _ hc))
      constructor
      · by_cases hp : n = p
        · subst hp
          have h0 := ih2.2 (by omega)
          have h1 := countP_le_one_of_pairwise_lt (k := k) (p := n)
            (mkCfEntries_pairwise_lt (p := n) (s := s) (e := e)
              (hsort cf (List.mem_cons_self _ _)))
          simp only [miRangesFrom, List.flatten_cons, List.countP_append]
          omega
        · have h1 := countP_mkCfEntries_ne (k := k) (s := s) (e := e)
            cf hp
          have h2 := ih2.1
          simp only [miRangesFrom, List.flatten_cons, List.countP_append]
          omega
      · intro hpn
        have h1 := countP_mkCfEntries_ne (k := k) (s := s) (e := e)
          cf (by omega : n ≠ p)
        have h0 := ih2.2 (by omega)
        simp only [miRangesFrom, List.flatten_cons, List.countP_append]
        omega

/-- Claim C4: over any well-formed engine state (strictly sorted column
families) and any range `[s, e)`, the sequence of entries yielded by
successive `MergedIterator::next()` calls is non-decreasing in
lexicographic key order, every yielded key lies in `[s, e)`, a key is
yielded at most once per column family, and occurrences of equal keys
are consecutive (between two positions holding the same key, every
position holds that key). -/
theorem claim_C4 (cfs : List CF) (s e : Key)
    (hsort : ∀ cf ∈ cfs, cf.Pairwise (fun a b => a.1 < b.1)) :
    ((MergedIterator.newState cfs s e).emit.Pairwise
        (fun a b : KeyEntry => a.key ≤ b.key)) ∧
    (∀ ent ∈ (MergedIterator.newState cfs s e).emit, s ≤ ent.key ∧ ent.key < e) ∧
    (∀ (k : Key) (p : Nat),
      (MergedIterator.newState cfs s e).emit.countP
        (fun ent => decide (ent.key = k) && decide (ent.pos = p)) ≤ 1) ∧
    (∀ i j l2 : Nat, i ≤ j → j ≤ l2 →
      l2 < ((MergedIterator.newState cfs s e).emit.map KeyEntry.key).length →
      ((MergedIterator.newState cfs s e).emit.map KeyEntry.key).getD i []
        = ((MergedIterator.newState cfs s e).emit.map KeyEntry.key).getD l2 [] →
      ((MergedIterator.newState cfs s e).emit.map KeyEntry.key).getD j []
        = ((MergedIterator.newState cfs s e).emit.map KeyEntry.key).getD i []) := by
  have hpr := newState_posrep cfs s e
  have hord := newState_ord s e hsort
  have hpw := emit_pairwise hpr hord
  have hperm := (emit_perm hpr).trans (newState_contents_perm cfs s e)
  refine ⟨hpw, ?_, ?_, ?_⟩
  · intro ent hent
    have hm : ent ∈ (miRanges cfs s e).flatten := hperm.mem_iff.mp hent
    obtain ⟨L, hL, hentL⟩ := List.mem_flatten.mp hm
    obtain ⟨i, hi, rfl⟩ := mem_miRanges hL
    exact (mkCfEntries_mem hentL).2
  · intro k p
    rw [hperm.countP_eq]
    exact (countP_miRangesFrom 0 cfs hsort).1
  · intro i j l2 hij hjl2 hlen heq
    have hkeys : ((MergedIterator.newState cfs s e).emit.map KeyEntry.key).Pairwise
        (fun a b : Key => a ≤ b) := List.pairwise_map.mpr hpw
    have hilen : i < ((MergedIterator.newState cfs s e).emit.map KeyEntry.key).length :=
      lt_of_le_of_lt (le_trans hij hjl2) hlen
    have hjlen : j < ((MergedIterator.newState cfs s e).emit.map KeyEntry.key).length :=
      lt_of_le_of_lt hjl2 hlen
    have h1 : ∀ (x y : Nat) (hx : x < ((MergedIterator.newState cfs s e).emit.map
          KeyEntry.key).length)
        (hy : y < ((MergedIterator.newState cfs s e).emit.map KeyEntry.key).length),
        x ≤ y → ((MergedIterator.newState cfs s e).emit.map KeyEntry.key).getD x []
          ≤ ((MergedIterator.newState cfs s e).emit.map KeyEntry.key).getD y [] := by
      intro x y hx hy hxy
      rw [List.getD_eq_getElem _ [] hx, List.getD_eq_getElem _ [] hy]
      rcases Nat.lt_or_ge x y with hlt | hge
      · exact List.pairwise_iff_getElem.mp hkeys x y hx hy hlt
      · have hxy2 : x = y := by omega
        subst hxy2
        exact le_refl _
    have ha := h1 i j hilen hjlen hij
    have hb := h1 j l2 hjlen hlen hjl2
    rw [← heq] at hb
    exact le_antisymm hb ha

theorem claim_C4_witness :
    (∀ cf ∈ [[(([1] : Key), 2)]], cf.Pairwise
      (fun a b : (Key × Nat) => a.1 < b.1)) ∧
    (∀ ent ∈ (MergedIterator.newState [[(([1] : Key), 2)]] [] [5]).emit,
      ([] : Key) ≤ ent.key ∧ ent.key < [5]) :=
  ⟨by decide, (claim_C4 [[(([1] : Key), 2)]] [] [5] (by decide)).2.1⟩

/-- Claim C5: for every engine state, CF list and range, the multiset of
entries yielded by the merged iterator until exhaustion is exactly the
union, with CF multiplicity, of the per-CF entries lying in
`[s, e)` (`miRanges`): no in-range key is dropped, and no out-of-range
key or extra duplicate is invented. -/
theorem claim_C5 (cfs : List CF) (s e : Key) :
    (MergedIterator.newState cfs s e).emit.Perm (miRanges cfs s e).flatten :=
  (emit_perm (newState_posrep cfs s e)).trans (newState_contents_perm cfs s e)

/-- Claim C6 (counterexample): a single column family whose only key
lies below the range start makes every CF empty in `[start, end)`, yet
`bound_keys` returns an error rather than `Ok(None)`: the `SeekKey::End`
probe ignores the range start, populating only the `last_key`
aggregate. -/
theorem claim_C6_counterexample :
    (∀ cf ∈ (Engine.mk [[(([0] : Key), 0)]] none false false).cfs,
      ∀ kv ∈ cf, ¬ (([1] : Key) ≤ kv.1 ∧ kv.1 < [2])) ∧
    bound_keys (Engine.mk [[(([0] : Key), 0)]] none false false) [1] [2]
      = .error "invalid bound" :=
  ⟨by decide, rfl⟩

/-- Claim C6 (amended): over a well-formed engine, `bound_keys` returns
`Ok(None)` exactly when no column family holds any key below `end_key`;
it returns `Ok(Some((min, max)))` with `min ≤ max` exactly when some
column family holds a key inside `[start_key, end_key)`; and it returns
an error exactly when all CFs are empty in the range but some CF holds a
key below `end_key` (equivalently: exactly one of the two fold
aggregates — the `last_key` one — is populated). -/
theorem claim_C6_amended (engine : Engine) (s e : Key)
    (hsort : ∀ cf ∈ engine.cfs, cf.Pairwise (fun a b => a.1 < b.1))
    (herr : engine.boundIterErr = false) :
    (bound_keys engine s e = .ok none ↔ ¬ ∃ cf ∈ engine.cfs, cfHasBelow cf e) ∧
    ((∃ fk lk, bound_keys engine s e = .ok (some (fk, lk)) ∧ fk ≤ lk) ↔
      ∃ cf ∈ engine.cfs, cfHasInRange cf s e) ∧
    ((∃ msg, bound_keys engine s e = .error msg) ↔
      ((¬ ∃ cf ∈ engine.cfs, cfHasInRange cf s e) ∧
        ∃ cf ∈ engine.cfs, cfHasBelow cf e)) :=
  bound_keys_spec engine s e hsort herr

theorem claim_C6_witness :
    (∀ cf ∈ (Engine.mk [[(([1] : Key), 5)]] none false false).cfs,
      cf.Pairwise (fun a b : (Key × Nat) => a.1 < b.1)) ∧
    ((∃ fk lk, bound_keys (Engine.mk [[(([1] : Key), 5)]] none false false)
        [1] [2] = .ok (some (fk, lk)) ∧ fk ≤ lk) ↔
      ∃ cf ∈ (Engine.mk [[(([1] : Key), 5)]] none false false).cfs,
        cfHasInRange cf [1] [2]) :=
  ⟨by decide,
    (claim_C6_amended (Engine.mk [[(([1] : Key), 5)]] none false false)
      [1] [2] (by decide) rfl).2.1⟩

/-- Claim C3: for an entry processed by the streaming loop body (with a
priority checker present): the entry is fed to the priority checker iff
the priority checker is not skipped; if, consulted, it yields a key, the
loop breaks with that key recorded as the priority split key and the
size checker is NOT fed; the entry is fed to the size checker exactly
when the size checker is not skipped and it is not the case that the
priority checker was consulted and yielded a key; and if the size
checker is fed and yields a key, the loop breaks with that key recorded
as the size split key. -/
theorem claim_C3 {σ : Type} (skipP skipS : Bool) (ent : KeyEntry)
    (acc : LoopAcc σ) (P : PriorityChecker σ) (st : σ)
    (hpc : acc.priority_checker = some (P, st)) :
    ((scanStep skipP skipS ent acc).2.fedP
        = (if skipP then acc.fedP else acc.fedP ++ [ent.key])) ∧
    (skipP = false →
      ∀ k2, (P.find_split_key st ent.key ent.value_size).1 = some k2 →
        (scanStep skipP skipS ent acc).1 = true ∧
        (scanStep skipP skipS ent acc).2.priority_split_key = some k2 ∧
        (scanStep skipP skipS ent acc).2.fedS = acc.fedS ∧
        (scanStep skipP skipS ent acc).2.size_checker = acc.size_checker) ∧
    ((scanStep skipP skipS ent acc).2.fedS
        = (if skipS = false ∧ ¬ (skipP = false ∧
              (P.find_split_key st ent.key ent.value_size).1.isSome = true)
            then acc.fedS ++ [ent.key] else acc.fedS)) ∧
    (skipS = false →
      ¬ (skipP = false ∧
          (P.find_split_key st ent.key ent.value_size).1.isSome = true) →
      ∀ k2, (acc.size_checker.find_split_key ent.key ent.value_size).1 = some k2 →
        (scanStep skipP skipS ent acc).1 = true ∧
        (scanStep skipP skipS ent acc).2.size_split_key = some k2) := by
  cases skipP <;> cases skipS <;>
    cases hres : (P.find_split_key st ent.key ent.value_size).1 <;>
    cases hsres : (acc.size_checker.find_split_key ent.key ent.value_size).1 <;>
      simp [scanStep, scanStepSize, hpc, hres, hsres]

/-- A trivial priority checker instance used by witnesses. -/
def trivialChecker : PriorityChecker Unit :=
  ⟨fun _ _ _ => true, fun s _ _ => (none, s), fun s => s⟩

/-- A concrete loop state used by witnesses. -/
def accW : LoopAcc Unit :=
  ⟨none, none, SizeChecker.new 10 4, some (trivialChecker, ()), [], []⟩

theorem claim_C3_witness :
    accW.priority_checker = some (trivialChecker, ()) ∧
    (scanStep false false ⟨[1], 0, 2⟩ accW).2.fedS
      = (if false = false ∧ ¬ (false = false ∧
            (trivialChecker.find_split_key () ([1] : Key) 2).1.isSome = true)
          then accW.fedS ++ [[1]] else accW.fedS) :=
  ⟨rfl, (claim_C3 false false ⟨[1], 0, 2⟩ accW trivialChecker () rfl).2.2.1⟩

/-- The messages emitted by `prev_check` are approximate-size reports,
never `SplitRegion`. -/
theorem prev_check_msgs_no_split (sc : SizeChecker) (engine : Engine)
    (region : Region) :
    (sc.prev_check engine region).2.filter Msg.isSplit = [] := by
  unfold SizeChecker.prev_check check_size
  cases engine.approx <;> simp [Msg.isSplit]

/-- Claim C7: if the approximate size of the region is strictly below
`region_max_size` and the priority checker (when present) skips on the
task's actual probed bounds (its `prev_check` returns `true` on the
value `bound_keys` actually returned, or there is no priority checker),
the Runner produces no `SplitRegion` message for the task. -/
theorem claim_C7 {σ : Type} (engine : Engine) (region : Region)
    (sc : SizeChecker) (pc : Option (PriorityChecker σ × σ)) (sz : Nat)
    (happrox : engine.approx = some sz) (hsz : sz < sc.region_max_size)
    (hpri : ∀ P st, pc = some (P, st) →
      ∀ bks, bound_keys engine (encStartKey region) (encEndKey region) = .ok bks →
        P.prev_check st region bks = true) :
    ∀ m ∈ (checkSplit engine region sc pc).msgs, m.isSplit = false := by
  intro m hm
  unfold checkSplit at hm
  dsimp only at hm
  cases hbk : bound_keys engine (encStartKey region) (encEndKey region) with
  | error err =>
      rw [hbk] at hm
      simp at hm
  | ok bks =>
      rw [hbk] at hm
      dsimp only at hm
      have hpre : sc.prev_check engine region
          = (true, [Msg.approximateRegionSize region.id sz]) := by
        unfold SizeChecker.prev_check check_size
        rw [happrox]
        simp [hsz]
      have hskipP : pcPrevCheck pc region bks = true := by
        cases hp : pc with
        | none => rfl
        | some Ps => exact hpri Ps.1 Ps.2 (by rw [hp]) bks hbk
      rw [hpre, hskipP] at hm
      simp at hm
      rw [hm]
      rfl

/-- A bounds-sensitive priority checker used by the C7 witness: its
pre-check skips (returns `true`) only on the specific probed bounds of
the witness engine, and requests a scan on every other bounds value. -/
def boundsChecker : PriorityChecker Unit :=
  ⟨fun _ _ bks => decide (bks = some (([122, 0] : Key), ([122, 1] : Key))),
   fun s _ _ => (none, s), fun s => s⟩

/-- The engine of the C7 witness: two data keys, approximate size 5. -/
def engC7 : Engine := ⟨[[([122, 0], 3), ([122, 1], 3)]], some 5, false, false⟩

/-- The region of the C7 witness. -/
def regC7 : Region := ⟨1, [], [], 0⟩

theorem claim_C7_witness :
    engC7.approx = some 5 ∧ 5 < 10 ∧
    bound_keys engC7 (encStartKey regC7) (encEndKey regC7)
      = .ok (some ([122, 0], [122, 1])) ∧
    boundsChecker.prev_check () regC7 (some ([122, 0], [122, 1])) = true ∧
    (∀ m ∈ (checkSplit engC7 regC7 (SizeChecker.new 10 4)
        (some (boundsChecker, ()))).msgs, m.isSplit = false) :=
  ⟨rfl, by decide, rfl, rfl,
    claim_C7 engC7 regC7 (SizeChecker.new 10 4) (some (boundsChecker, ())) 5 rfl
      (by decide)
      (fun P st h bks hbk => by
        injection h with h2
        injection h2 with h3 h4
        subst h3
        subst h4
        have h5 : bound_keys engC7 (encStartKey regC7) (encEndKey regC7)
            = Except.ok (some (([122, 0] : Key), ([122, 1] : Key))) := rfl
        rw [h5] at hbk
        have h6 : bks = some ([122, 0], [122, 1]) := (Except.ok.inj hbk).symm
        rw [h6]
        rfl)⟩

/-- Claim C8: at most one `SplitRegion` message is produced per task;
when the scan runs (bounds probed, not both pre-checks skipping, merged
iterator constructed), the `SplitRegion` output is decided by the scan
results with the priority key winning over the size key, the size key
used otherwise, and no message when neither is set. -/
theorem claim_C8 {σ : Type} (engine : Engine) (region : Region)
    (sc : SizeChecker) (pc : Option (PriorityChecker σ × σ)) :
    (((checkSplit engine region sc pc).msgs.filter Msg.isSplit).length ≤ 1) ∧
    (∀ bks it,
      bound_keys engine (encStartKey region) (encEndKey region) = .ok bks →
      MergedIterator.new engine (encStartKey region) (encEndKey region) = .ok it →
      (pcPrevCheck pc region bks && (sc.prev_check engine region).1) = false →
      (checkSplit engine region sc pc).msgs.filter Msg.isSplit =
        (match (scanLoop (pcPrevCheck pc region bks)
              ((sc.prev_check engine region).1) it
              ⟨none, none, sc, pc, [], []⟩).priority_split_key,
            (scanLoop (pcPrevCheck pc region bks)
              ((sc.prev_check engine region).1) it
              ⟨none, none, sc, pc, [], []⟩).size_split_key with
          | some key, _ => [new_split_region region.id region.epoch key]
          | none, some key => [new_split_region region.id region.epoch key]
          | none, none => [])) := by
  constructor
  · unfold checkSplit
    dsimp only
    cases hbk : bound_keys engine (encStartKey region) (encEndKey region) with
    | error err => simp
    | ok bks =>
        dsimp only
        by_cases hskip : (pcPrevCheck pc region bks
            && (sc.prev_check engine region).1) = true
        · rw [if_pos hskip]
          simp [prev_check_msgs_no_split]
        · rw [if_neg hskip]
          cases hmi : MergedIterator.new engine (encStartKey region)
              (encEndKey region) with
          | error err => simp [prev_check_msgs_no_split]
          | ok it =>
              dsimp only
              cases (scanLoop (pcPrevCheck pc region bks)
                  ((sc.prev_check engine region).1) it
                  ⟨none, none, sc, pc, [], []⟩).priority_split_key with
              | some key =>
                  simp [List.filter_append, prev_check_msgs_no_split,
                    new_split_region, Msg.isSplit]
              | none =>
                  cases (scanLoop (pcPrevCheck pc region bks)
                      ((sc.prev_check engine region).1) it
                      ⟨none, none, sc, pc, [], []⟩).size_split_key with
                  | some key =>
                      simp [List.filter_append, prev_check_msgs_no_split,
                        new_split_region, Msg.isSplit]
                  | none => simp [prev_check_msgs_no_split]
  · intro bks it hbk hmi hskip
    unfold checkSplit
    dsimp only
    rw [hbk]
    dsimp only
    rw [hskip]
    rw [if_neg (by simp)]
    rw [hmi]
    dsimp only
    cases (scanLoop (pcPrevCheck pc region bks)
        ((sc.prev_check engine region).1) it
        ⟨none, none, sc, pc, [], []⟩).priority_split_key with
    | some key =>
        simp [List.filter_append, prev_check_msgs_no_split,
          new_split_region, Msg.isSplit]
    | none =>
        cases (scanLoop (pcPrevCheck pc region bks)
            ((sc.prev_check engine region).1) it
            ⟨none, none, sc, pc, [], []⟩).size_split_key with
        | some key =>
            simp [List.filter_append, prev_check_msgs_no_split,
              new_split_region, Msg.isSplit]
        | none => simp [prev_check_msgs_no_split]

/-- A concrete engine whose single column family triggers a size split
(two 2-byte keys with 3-byte values, thresholds 10/4). -/
def engW : Engine := ⟨[[(([122, 0] : Key), 3), (([122, 1] : Key), 3)]],
  some 12, false, false⟩

def regW : Region := ⟨1, [], [], 7⟩

def bksW : Option (Key × Key) := some ([122, 0], [122, 1])

def itW : MergedIterator :=
  MergedIterator.newState engW.cfs (encStartKey regW) (encEndKey regW)

theorem claim_C8_witness :
    bound_keys engW (encStartKey regW) (encEndKey regW) = .ok bksW ∧
    (checkSplit (σ := Unit) engW regW (SizeChecker.new 10 4) none).msgs.filter
        Msg.isSplit =
      (match (scanLoop (σ := Unit) (pcPrevCheck (σ := Unit) none regW bksW)
            (((SizeChecker.new 10 4)).prev_check engW regW).1 itW
            ⟨none, none, SizeChecker.new 10 4, none, [], []⟩).priority_split_key,
          (scanLoop (σ := Unit) (pcPrevCheck (σ := Unit) none regW bksW)
            (((SizeChecker.new 10 4)).prev_check engW regW).1 itW
            ⟨none, none, SizeChecker.new 10 4, none, [], []⟩).size_split_key with
        | some key, _ => [new_split_region regW.id regW.epoch key]
        | none, some key => [new_split_region regW.id regW.epoch key]
        | none, none => []) :=
  ⟨rfl, (claim_C8 engW regW (SizeChecker.new 10 4) none).2 bksW itW rfl rfl rfl⟩

/-- A key returned by `find_split_key`, or left recorded in `split_key`,
is either the fed key or was already recorded before the call. -/
theorem find_split_key_result_src (c : SizeChecker) (k : Key) (v : Nat) :
    (∀ k2, (c.find_split_key k v).1 = some k2 → k2 = k ∨ c.split_key = some k2) ∧
    (∀ k2, (c.find_split_key k v).2.split_key = some k2 →
      k2 = k ∨ c.split_key = some k2) := by
  have h := find_split_key_spec c k v
  constructor
  · intro k2 hk2
    rw [h.1] at hk2
    split at hk2
    · unfold recordedKey at hk2
      split at hk2
      · left
        injection hk2 with hk2
        exact hk2.symm
      · right
        exact hk2
    · cases hk2
  · intro k2 hk2
    rw [h.2] at hk2
    split at hk2
    · cases hk2
    · unfold recordedKey at hk2
      split at hk2
      · left
        injection hk2 with hk2
        exact hk2.symm
      · right
        exact hk2

/-- The provenance invariant carried through the streaming loop: the
priority checker obeys its contract (any key it returns is the key fed
to it), any recorded or returned size key was fed to the size checker,
and any recorded priority key was fed to the priority checker. -/
def ProvInv {σ : Type} (acc : LoopAcc σ) : Prop :=
  (∀ (P : PriorityChecker σ) (s0 : σ), acc.priority_checker = some (P, s0) →
    ∀ (s2 : σ) (k : Key) (v : Nat) (k2 : Key),
      (P.find_split_key s2 k v).1 = some k2 → k2 = k) ∧
  (∀ k, acc.size_checker.split_key = some k → k ∈ acc.fedS) ∧
  (∀ k, acc.priority_split_key = some k → k ∈ acc.fedP) ∧
  (∀ k, acc.size_split_key = some k → k ∈ acc.fedS)

theorem scanStepSize_prov {σ : Type} {skipS : Bool} {ent : KeyEntry}
    {acc : LoopAcc σ} (h : ProvInv acc) :
    ProvInv (scanStepSize skipS ent acc).2 := by
  obtain ⟨hctr, hsk, hpk, hsk2⟩ := h
  unfold scanStepSize
  cases skipS with
  | true => exact ⟨hctr, hsk, hpk, hsk2⟩
  | false =>
      dsimp only
      have hsrc := find_split_key_result_src acc.size_checker ent.key ent.value_size
      cases hres : (acc.size_checker.find_split_key ent.key ent.value_size).1 with
      | some key =>
          dsimp only
          refine ⟨hctr, ?_, hpk, ?_⟩
          · intro k hk
            rcases hsrc.2 k hk with rfl | hold
            · exact List.mem_append.mpr (Or.inr (List.mem_cons_self _ _))
            · exact List.mem_append.mpr (Or.inl (hsk k hold))
          · intro k hk
            injection hk with hk
            subst hk
            rcases hsrc.1 key hres with rfl | hold
            · exact List.mem_append.mpr (Or.inr (List.mem_cons_self _ _))
            · exact List.mem_append.mpr (Or.inl (hsk key hold))
      | none =>
          dsimp only
          refine ⟨hctr, ?_, hpk, ?_⟩
          · intro k hk
            rcases hsrc.2 k hk with rfl | hold
            · exact List.mem_append.mpr (Or.inr (List.mem_cons_self _ _))
            · exact List.mem_append.mpr (Or.inl (hsk k hold))
          · intro k hk
            exact List.mem_append.mpr (Or.inl (hsk2 k hk))

theorem scanStep_prov {σ : Type} {skipP skipS : Bool} {ent : KeyEntry}
    {acc : LoopAcc σ} (h : ProvInv acc) :
    ProvInv (scanStep skipP skipS ent acc).2 := by
  obtain ⟨hctr, hsk, hpk, hsk2⟩ := h
  unfold scanStep
  cases skipP with
  | true => exact scanStepSize_prov ⟨hctr, hsk, hpk, hsk2⟩
  | false =>
      dsimp only
      cases hpc : acc.priority_checker with
      | none => exact scanStepSize_prov ⟨hctr, hsk, hpk, hsk2⟩
      | some Ps =>
          dsimp only
          have hctr2 : ∀ (s2 : σ) (k : Key) (v : Nat) (k2 : Key),
              (Ps.1.find_split_key s2 k v).1 = some k2 → k2 = k :=
            fun s2 k v k2 hk2 => hctr Ps.1 Ps.2 (by rw [hpc]) s2 k v k2 hk2
          cases hres : (Ps.1.find_split_key Ps.2 ent.key ent.value_size).1 with
          | some key =>
              dsimp only
              refine ⟨?_, hsk, ?_, hsk2⟩
              · intro P s0 hP
                have hP2 := Prod.mk.inj (Option.some.inj hP)
                intro s2 k v k2 hk2
                exact hctr2 s2 k v k2 (by rw [hP2.1]; exact hk2)
              · intro k hk
                injection hk with hk
                subst hk
                have hkey : key = ent.key :=
                  hctr2 Ps.2 ent.key ent.value_size key hres
                subst hkey
                exact List.mem_append.mpr (Or.inr (List.mem_cons_self _ _))
          | none =>
              refine scanStepSize_prov ⟨?_, hsk, ?_, hsk2⟩
              · intro P s0 hP
                have hP2 := Prod.mk.inj (Option.some.inj hP)
                intro s2 k v k2 hk2
                exact hctr2 s2 k v k2 (by rw [hP2.1]; exact hk2)
              · intro k hk
                exact List.mem_append.mpr (Or.inl (hpk k hk))

theorem scanLoop_eq_none {σ : Type} {skipP skipS : Bool} {it : MergedIterator}
    {acc : LoopAcc σ} (h : it.next = none) :
    scanLoop skipP skipS it acc = acc := by
  rw [scanLoop, h]

theorem scanLoop_eq_some {σ : Type} {skipP skipS : Bool} {it it2 : MergedIterator}
    {ent : KeyEntry} {acc : LoopAcc σ} (h : it.next = some (ent, it2)) :
    scanLoop skipP skipS it acc =
      (match scanStep skipP skipS ent acc with
        | (true, acc2) => acc2
        | (false, acc2) => scanLoop skipP skipS it2 acc2) := by
  rw [scanLoop, h]

theorem scanLoop_prov_aux {σ : Type} (skipP skipS : Bool) :
    ∀ (n : Nat) (it : MergedIterator), it.totalSize ≤ n →
    ∀ (acc : LoopAcc σ), ProvInv acc →
      ProvInv (scanLoop skipP skipS it acc) := by
  intro n
  induction n with
  | zero =>
      intro it hsz acc hinv
      cases hnext : it.next with
      | none => rw [scanLoop_eq_none hnext]; exact hinv
      | some p =>
          have := next_totalSize hnext
          omega
  | succ n ih =>
      intro it hsz acc hinv
      cases hnext : it.next with
      | none => rw [scanLoop_eq_none hnext]; exact hinv
      | some p =>
          obtain ⟨ent, it2⟩ := p
          rw [scanLoop_eq_some hnext]
          have hstepinv := @scanStep_prov σ skipP skipS ent acc hinv
          have hsz2 := next_totalSize hnext
          cases hstep : scanStep skipP skipS ent acc with
          | mk brk acc2 =>
              rw [hstep] at hstepinv
              cases brk
              · exact ih it2 (by omega) acc2 hstepinv
              · exact hstepinv

theorem scanLoop_prov {σ : Type} (skipP skipS : Bool) (it : MergedIterator)
    (acc : LoopAcc σ) (h : ProvInv acc) :
    ProvInv (scanLoop skipP skipS it acc) :=
  scanLoop_prov_aux skipP skipS it.totalSize it le_rfl acc h

theorem scanStepSize_cfg {σ : Type} (skipS : Bool) (ent : KeyEntry)
    (acc : LoopAcc σ) :
    (scanStepSize skipS ent acc).2.size_checker.region_max_size
        = acc.size_checker.region_max_size ∧
    (scanStepSize skipS ent acc).2.size_checker.split_size
        = acc.size_checker.split_size := by
  unfold scanStepSize
  have h := find_split_key_keeps_cfg acc.size_checker ent.key ent.value_size
  cases skipS with
  | true => exact ⟨rfl, rfl⟩
  | false =>
      dsimp only
      cases hres : (acc.size_checker.find_split_key ent.key ent.value_size).1 <;>
        exact ⟨h.1, h.2⟩

theorem scanStep_cfg {σ : Type} (skipP skipS : Bool) (ent : KeyEntry)
    (acc : LoopAcc σ) :
    (scanStep skipP skipS ent acc).2.size_checker.region_max_size
        = acc.size_checker.region_max_size ∧
    (scanStep skipP skipS ent acc).2.size_checker.split_size
        = acc.size_checker.split_size := by
  unfold scanStep
  cases skipP with
  | true => exact scanStepSize_cfg skipS ent acc
  | false =>
      dsimp only
      cases hpc : acc.priority_checker with
      | none => exact scanStepSize_cfg skipS ent acc
      | some Ps =>
          dsimp only
          cases hres : (Ps.1.find_split_key Ps.2 ent.key ent.value_size).1 with
          | some key => exact ⟨rfl, rfl⟩
          | none => exact scanStepSize_cfg skipS ent _

theorem scanLoop_cfg_aux {σ : Type} (skipP skipS : Bool) :
    ∀ (n : Nat) (it : MergedIterator), it.totalSize ≤ n →
    ∀ (acc : LoopAcc σ),
      (scanLoop skipP skipS it acc).size_checker.region_max_size
          = acc.size_checker.region_max_size ∧
      (scanLoop skipP skipS it acc).size_checker.split_size
          = acc.size_checker.split_size := by
  intro n
  induction n with
  | zero =>
      intro it hsz acc
      cases hnext : it.next with
      | none => rw [scanLoop_eq_none hnext]; exact ⟨rfl, rfl⟩
      | some p =>
          have := next_totalSize hnext
          omega
  | succ n ih =>
      intro it hsz acc
      cases hnext : it.next with
      | none => rw [scanLoop_eq_none hnext]; exact ⟨rfl, rfl⟩
      | some p =>
          obtain ⟨ent, it2⟩ := p
          rw [scanLoop_eq_some hnext]
          have hstepcfg := scanStep_cfg skipP skipS ent acc
          have hsz2 := next_totalSize hnext
          cases hstep : scanStep skipP skipS ent acc with
          | mk brk acc2 =>
              rw [hstep] at hstepcfg
              cases brk
              · have hrec := ih it2 (by omega) acc2
                exact ⟨hrec.1.trans hstepcfg.1, hrec.2.trans hstepcfg.2⟩
              · exact hstepcfg

theorem scanLoop_cfg {σ : Type} (skipP skipS : Bool) (it : MergedIterator)
    (acc : LoopAcc σ) :
    (scanLoop skipP skipS it acc).size_checker.region_max_size
        = acc.size_checker.region_max_size ∧
    (scanLoop skipP skipS it acc).size_checker.split_size
        = acc.size_checker.split_size :=
  scanLoop_cfg_aux skipP skipS it.totalSize it le_rfl acc

theorem finish_eq_new (c : SizeChecker) :
    c.finish = SizeChecker.new c.region_max_size c.split_size := by
  cases c
  rfl

/-- Claim C10: one `run(Task)` maps a fresh size-checker accumulator
state (`split_key = None`, `current_size = 0`) back to the fresh state
on every exit path of `check_split` — the `bound_keys` error return, the
both-pre-checks-skip return, the merged-iterator construction error
return (where `finish()` still runs, before the error is examined), and
the normal path. -/
theorem claim_C10 {σ : Type} (engine : Engine) (region : Region)
    (region_max_size split_size : Nat)
    (pc : Option (PriorityChecker σ × σ)) :
    (checkSplit engine region (SizeChecker.new region_max_size split_size)
        pc).size_checker = SizeChecker.new region_max_size split_size := by
  unfold checkSplit
  dsimp only
  cases hbk : bound_keys engine (encStartKey region) (encEndKey region) with
  | error err => rfl
  | ok bks =>
      dsimp only
      by_cases hskip : (pcPrevCheck pc region bks
          && ((SizeChecker.new region_max_size split_size).prev_check
            engine region).1) = true
      · rw [if_pos hskip]
      · rw [if_neg hskip]
        cases hmi : MergedIterator.new engine (encStartKey region)
            (encEndKey region) with
        | error err => rfl
        | ok it =>
            dsimp only
            have hcfg := scanLoop_cfg (pcPrevCheck pc region bks)
              ((SizeChecker.new region_max_size split_size).prev_check
                engine region).1 it
              ⟨none, none, SizeChecker.new region_max_size split_size, pc, [], []⟩
            cases (scanLoop (pcPrevCheck pc region bks)
                ((SizeChecker.new region_max_size split_size).prev_check
                  engine region).1 it
                ⟨none, none, SizeChecker.new region_max_size split_size,
                  pc, [], []⟩).priority_split_key <;>
              cases (scanLoop (pcPrevCheck pc region bks)
                  ((SizeChecker.new region_max_size split_size).prev_check
                    engine region).1 it
                  ⟨none, none, SizeChecker.new region_max_size split_size,
                    pc, [], []⟩).size_split_key <;>
                (dsimp only; rw [finish_eq_new, hcfg.1, hcfg.2]; rfl)

/-- Claim C9: any published `SplitRegion` carries the un-prefixed
(`origin_key`) form of the chosen split key, and the chosen key is
byte-equal to some key that was fed to the emitting checker during the
scan — unconditionally for the size checker, and for a priority checker
under the `Checker` contract that `find_split_key` only ever returns
(a copy of) the key currently fed to it.  `keys::origin_key` and the
region-bound encodings live outside `src/` and are modelled from the
spec. -/
theorem claim_C9 {σ : Type} (engine : Engine) (region : Region)
    (sc : SizeChecker) (pc : Option (PriorityChecker σ × σ))
    (bks : Option (Key × Key)) (it : MergedIterator)
    (hfresh : sc.split_key = none)
    (hctr : ∀ (P : PriorityChecker σ) (s0 : σ), pc = some (P, s0) →
      ∀ (s2 : σ) (k : Key) (v : Nat) (k2 : Key),
        (P.find_split_key s2 k v).1 = some k2 → k2 = k)
    (hbk : bound_keys engine (encStartKey region) (encEndKey region) = .ok bks)
    (hmi : MergedIterator.new engine (encStartKey region) (encEndKey region)
      = .ok it) :
    ∀ sk, Msg.splitRegion region.id region.epoch sk
        ∈ (checkSplit engine region sc pc).msgs →
      ∃ k, sk = originKey k ∧
        (((scanLoop (pcPrevCheck pc region bks) ((sc.prev_check engine region).1)
              it ⟨none, none, sc, pc, [], []⟩).priority_split_key = some k ∧
            k ∈ (scanLoop (pcPrevCheck pc region bks)
              ((sc.prev_check engine region).1)
              it ⟨none, none, sc, pc, [], []⟩).fedP) ∨
          ((scanLoop (pcPrevCheck pc region bks) ((sc.prev_check engine region).1)
              it ⟨none, none, sc, pc, [], []⟩).priority_split_key = none ∧
            (scanLoop (pcPrevCheck pc region bks)
              ((sc.prev_check engine region).1)
              it ⟨none, none, sc, pc, [], []⟩).size_split_key = some k ∧
            k ∈ (scanLoop (pcPrevCheck pc region bks)
              ((sc.prev_check engine region).1)
              it ⟨none, none, sc, pc, [], []⟩).fedS)) := by
  intro sk hmem
  unfold checkSplit at hmem
  dsimp only at hmem
  rw [hbk] at hmem
  dsimp only at hmem
  have hinv0 : ProvInv (⟨none, none, sc, pc, [], []⟩ : LoopAcc σ) := by
    refine ⟨?_, ?_, ?_, ?_⟩
    · intro P s0 hP
      exact hctr P s0 hP
    · intro k hk
      dsimp only at hk
      rw [hfresh] at hk
      cases hk
    · intro k hk
      cases hk
    · intro k hk
      cases hk
  have hprov := scanLoop_prov (pcPrevCheck pc region bks)
    ((sc.prev_check engine region).1) it ⟨none, none, sc, pc, [], []⟩ hinv0
  have hnosplit : ¬ Msg.splitRegion region.id region.epoch sk
      ∈ (sc.prev_check engine region).2 := by
    intro hin
    have hfil := prev_check_msgs_no_split sc engine region
    have hmem2 : Msg.splitRegion region.id region.epoch sk
        ∈ (sc.prev_check engine region).2.filter Msg.isSplit :=
      List.mem_filter.mpr ⟨hin, rfl⟩
    rw [hfil] at hmem2
    exact absurd hmem2 (List.not_mem_nil _)
  by_cases hskip : (pcPrevCheck pc region bks
      && (sc.prev_check engine region).1) = true
  · rw [if_pos hskip] at hmem
    exact absurd hmem hnosplit
  · rw [if_neg hskip] at hmem
    rw [hmi] at hmem
    dsimp only at hmem
    cases hp : (scanLoop (pcPrevCheck pc region bks)
        ((sc.prev_check engine region).1) it
        ⟨none, none, sc, pc, [], []⟩).priority_split_key with
    | some key =>
        rw [hp] at hmem
        dsimp only at hmem
        rcases List.mem_append.mp hmem with hin | hin
        · exact absurd hin hnosplit
        · rcases List.mem_cons.mp hin with heq | hin2
          · refine ⟨key, ?_, Or.inl ⟨rfl, hprov.2.2.1 key hp⟩⟩
            unfold new_split_region at heq
            injection heq with h1 h2 h3
            try exact h3
          · exact absurd hin2 (List.not_mem_nil _)
    | none =>
        rw [hp] at hmem
        cases hs : (scanLoop (pcPrevCheck pc region bks)
            ((sc.prev_check engine region).1) it
            ⟨none, none, sc, pc, [], []⟩).size_split_key with
        | some key =>
            rw [hs] at hmem
            dsimp only at hmem
            rcases List.mem_append.mp hmem with hin | hin
            · exact absurd hin hnosplit
            · rcases List.mem_cons.mp hin with heq | hin2
              · refine ⟨key, ?_, Or.inr ⟨rfl, rfl, hprov.2.2.2 key hs⟩⟩
                unfold new_split_region at heq
                injection heq with h1 h2 h3
                try exact h3
              · exact absurd hin2 (List.not_mem_nil _)
        | none =>
            rw [hs] at hmem
            dsimp only at hmem
            exact absurd hmem hnosplit

theorem claim_C9_witness :
    (SizeChecker.new 10 4).split_key = none ∧
    (∀ sk, Msg.splitRegion regW.id regW.epoch sk
        ∈ (checkSplit (σ := Unit) engW regW (SizeChecker.new 10 4) none).msgs →
      ∃ k, sk = originKey k ∧
        (((scanLoop (σ := Unit) (pcPrevCheck (σ := Unit) none regW bksW)
              (((SizeChecker.new 10 4)).prev_check engW regW).1
              itW ⟨none, none, SizeChecker.new 10 4, none, [], []⟩).priority_split_key
                = some k ∧
            k ∈ (scanLoop (σ := Unit) (pcPrevCheck (σ := Unit) none regW bksW)
              (((SizeChecker.new 10 4)).prev_check engW regW).1
              itW ⟨none, none, SizeChecker.new 10 4, none, [], []⟩).fedP) ∨
          ((scanLoop (σ := Unit) (pcPrevCheck (σ := Unit) none regW bksW)
              (((SizeChecker.new 10 4)).prev_check engW regW).1
              itW ⟨none, none, SizeChecker.new 10 4, none, [], []⟩).priority_split_key
                = none ∧
            (scanLoop (σ := Unit) (pcPrevCheck (σ := Unit) none regW bksW)
              (((SizeChecker.new 10 4)).prev_check engW regW).1
              itW ⟨none, none, SizeChecker.new 10 4, none, [], []⟩).size_split_key
                = some k ∧
            k ∈ (scanLoop (σ := Unit) (pcPrevCheck (σ := Unit) none regW bksW)
              (((SizeChecker.new 10 4)).prev_check engW regW).1
              itW ⟨none, none, SizeChecker.new 10 4, none, [], []⟩).fedS))) :=
  ⟨rfl, claim_C9 engW regW (SizeChecker.new 10 4) none bksW itW rfl
    (fun P s0 h => nomatch h) rfl rfl⟩
